import Mathlib

/-!
Verification of the retrieval-and-grounding core of `web_data_collection`
(`webpage_retrieval.py`, `data_extraction.py`) against its specification.

The Python functions are shallowly embedded as executable Lean definitions.
Strings are handled through their character lists (`String.data`); Python's
`re.sub` calls in `_remove_markdown_links` are embedded as deterministic
left-to-right scanners, which is faithful for these particular patterns
because their character classes exclude the closing delimiter, so the regex
engine never backtracks into a different overall match.  Remote search
responses are inputs to the embedded orchestrators (the spec treats the
search proxy as a black box).  Python's `//` floor division on the involved
quantities is embedded with `Int` division (`/` = `Int.ediv`), which agrees
with floor division whenever the divisor is positive, as it is at both
division sites of `_get_date_chunks` (366, and `num_chunks ≥ 1`).
-/

/-! ## Generic character-list utilities -/

/-- Bool test that `needle` is a prefix of `hay` (Python `str.startswith`,
and the anchored step of `str.replace` / substring search). -/
def charsStartWith : List Char → List Char → Bool
  | [], _ => true
  | _ :: _, [] => false
  | a :: as, b :: bs => a == b && charsStartWith as bs

/-- Bool test that `needle` occurs contiguously inside `hay` (Python `in`
on strings). -/
def containsSub (needle : List Char) : List Char → Bool
  | [] => needle.isEmpty
  | c :: cs => charsStartWith needle (c :: cs) || containsSub needle cs

theorem charsStartWith_iff (needle hay : List Char) :
    charsStartWith needle hay = true ↔ needle <+: hay := by
  induction needle generalizing hay with
  | nil => simp [charsStartWith]
  | cons a as ih =>
    cases hay with
    | nil => simp [charsStartWith]
    | cons b bs =>
      simp [charsStartWith, ih, List.cons_prefix_cons]

theorem containsSub_iff (needle hay : List Char) :
    containsSub needle hay = true ↔ needle <:+: hay := by
  induction hay with
  | nil => simp [containsSub, List.isEmpty_iff]
  | cons c cs ih =>
    simp only [containsSub, Bool.or_eq_true, charsStartWith_iff, ih,
      List.infix_cons_iff]

/-- One pass of `re.sub` for an unanchored pattern: scan left to right; at
each position try the matcher; on a match emit the replacement and resume
after the matched text, otherwise keep the character and move on.  The fuel
argument only serves termination; every matcher used below consumes at
least one character, so `fuel = length` always suffices. -/
def subScan (m : List Char → Option (List Char × List Char)) :
    Nat → List Char → List Char
  | 0, cs => cs
  | _ + 1, [] => []
  | fuel + 1, c :: cs =>
    match m (c :: cs) with
    | some (rep, rest) => rep ++ subScan m fuel rest
    | none => c :: subScan m fuel cs

/-! ## `_remove_markdown_links` (data_extraction.py) -/

/-- Matcher for the pattern of inline links `\[([^\]]+)\]\([^)]+\)`,
replaced by the captured text (`\1`). -/
def matchInlineLink : List Char → Option (List Char × List Char)
  | [] => none
  | c :: rest =>
    if c = '[' then
      let text := rest.takeWhile (· != ']')
      match text, rest.drop text.length with
      | [], _ => none
      | _ :: _, ']' :: '(' :: r2 =>
        let url := r2.takeWhile (· != ')')
        match url, r2.drop url.length with
        | [], _ => none
        | _ :: _, ')' :: r3 => some (text, r3)
        | _, _ => none
      | _, _ => none
    else none

/-- Matcher for the pattern of reference-style links
`\[([^\]]+)\]\[[^\]]+\]`, replaced by the captured text (`\1`). -/
def matchRefLink : List Char → Option (List Char × List Char)
  | [] => none
  | c :: rest =>
    if c = '[' then
      let text := rest.takeWhile (· != ']')
      match text, rest.drop text.length with
      | [], _ => none
      | _ :: _, ']' :: '[' :: r2 =>
        let ref := r2.takeWhile (· != ']')
        match ref, r2.drop ref.length with
        | [], _ => none
        | _ :: _, ']' :: r3 => some (text, r3)
        | _, _ => none
      | _, _ => none
    else none

/-- Matcher for the image pattern `!\[[^\]]*\]\([^)]+\)`, deleted entirely
(note the alt text may be empty, `*` not `+`). -/
def matchImage : List Char → Option (List Char × List Char)
  | c1 :: c2 :: rest =>
    if c1 = '!' ∧ c2 = '[' then
      let alt := rest.takeWhile (· != ']')
      match rest.drop alt.length with
      | ']' :: '(' :: r2 =>
        let url := r2.takeWhile (· != ')')
        match url, r2.drop url.length with
        | [], _ => none
        | _ :: _, ')' :: r3 => some ([], r3)
        | _, _ => none
      | _ => none
    else none
  | _ => none

/-- Matcher for the empty-link pattern `\[\]\([^)]+\)`, deleted entirely. -/
def matchEmptyLink : List Char → Option (List Char × List Char)
  | c1 :: c2 :: c3 :: r2 =>
    if c1 = '[' ∧ c2 = ']' ∧ c3 = '(' then
      let url := r2.takeWhile (· != ')')
      match url, r2.drop url.length with
      | [], _ => none
      | _ :: _, ')' :: r3 => some ([], r3)
      | _, _ => none
    else none
  | _ => none

/-- Python `\s` on ASCII text. -/
def isPySpace (c : Char) : Bool :=
  c == ' ' || c == '\t' || c == '\n' || c == '\r' || c == '\x0b' || c == '\x0c'

/-- Matcher (at a line start) for the reference-definition pattern
`^\[[^\]]+\]:\s*.*$` with `re.MULTILINE`: `\s*` greedily eats whitespace
(including newlines) after the colon, then `.*` eats the rest of the line
where the whitespace ended; `$` is zero width, so the returned rest begins
at a newline or at the end of the string. -/
def matchRefDef : List Char → Option (List Char)
  | [] => none
  | c :: rest =>
    if c = '[' then
      let ref := rest.takeWhile (· != ']')
      match ref, rest.drop ref.length with
      | [], _ => none
      | _ :: _, ']' :: ':' :: r2 =>
        let ws := r2.takeWhile isPySpace
        let r3 := r2.drop ws.length
        let line := r3.takeWhile (· != '\n')
        some (r3.drop line.length)
      | _, _ => none
    else none

/-- One pass of `re.sub` for the line-anchored reference-definition pattern.
The Bool flag records whether the current position is at the start of a
line (string start, or just after a newline). -/
def subRefDefs : Nat → Bool → List Char → List Char
  | 0, _, cs => cs
  | _ + 1, _, [] => []
  | fuel + 1, atLineStart, c :: cs =>
    match (if atLineStart then matchRefDef (c :: cs) else none) with
    | some rest => subRefDefs fuel false rest
    | none => c :: subRefDefs fuel (c == '\n') cs

/-- Embedding of `_remove_markdown_links`: the five `re.sub` passes in
source order (inline links, reference links, reference definitions,
images, empty links). -/
def remove_markdown_links (text : String) : String :=
  let t1 := subScan matchInlineLink text.data.length text.data
  let t2 := subScan matchRefLink t1.length t1
  let t3 := subRefDefs t2.length true t2
  let t4 := subScan matchImage t3.length t3
  let t5 := subScan matchEmptyLink t4.length t4
  String.mk t5

/-! ## `_check_grounding` (data_extraction.py) -/

/-- Embedding of `_check_grounding`.  The datapoint's `grounding_quote`
field is modelled as an `Option String` (`none` for a missing field); the
Python falsiness test `if not grounding` also treats the empty string as
missing.  `Char.isAlphanum` matches Python `str.isalnum` on ASCII text. -/
def check_grounding (groundingQuote : Option String) (webpageMarkdown : String) :
    Bool × Option String :=
  match groundingQuote with
  | none => (false, none)
  | some g =>
    if g = "" then (false, none)
    else
      let gR := g.data.filter Char.isAlphanum
      let wR := (remove_markdown_links webpageMarkdown).data.filter Char.isAlphanum
      (containsSub gR wR, some (String.mk wR))

/-! ## No-op lemmas for bracket-free text -/

theorem matchInlineLink_eq_none {cs : List Char} (h : '[' ∉ cs) :
    matchInlineLink cs = none := by
  cases cs with
  | nil => rfl
  | cons c cs =>
    have hc : ¬(c = '[') := fun hc => h (by simp [hc])
    simp only [matchInlineLink, if_neg hc]

theorem matchRefLink_eq_none {cs : List Char} (h : '[' ∉ cs) :
    matchRefLink cs = none := by
  cases cs with
  | nil => rfl
  | cons c cs =>
    have hc : ¬(c = '[') := fun hc => h (by simp [hc])
    simp only [matchRefLink, if_neg hc]

theorem matchImage_eq_none {cs : List Char} (h : '[' ∉ cs) :
    matchImage cs = none := by
  cases cs with
  | nil => rfl
  | cons c1 cs =>
    cases cs with
    | nil => rfl
    | cons c2 cs2 =>
      have hc : ¬(c1 = '!' ∧ c2 = '[') := fun hc => h (by simp [hc.2])
      simp only [matchImage, if_neg hc]

theorem matchEmptyLink_eq_none {cs : List Char} (h : '[' ∉ cs) :
    matchEmptyLink cs = none := by
  cases cs with
  | nil => rfl
  | cons c1 cs =>
    cases cs with
    | nil => rfl
    | cons c2 cs2 =>
      cases cs2 with
      | nil => rfl
      | cons c3 cs3 =>
        have hc : ¬(c1 = '[' ∧ c2 = ']' ∧ c3 = '(') := fun hc => h (by simp [hc.1])
        simp only [matchEmptyLink, if_neg hc]

theorem matchRefDef_eq_none {cs : List Char} (h : '[' ∉ cs) :
    matchRefDef cs = none := by
  cases cs with
  | nil => rfl
  | cons c cs =>
    have hc : ¬(c = '[') := fun hc => h (by simp [hc])
    simp only [matchRefDef, if_neg hc]

theorem subScan_eq_self (m : List Char → Option (List Char × List Char))
    (hm : ∀ ds : List Char, '[' ∉ ds → m ds = none) :
    ∀ (fuel : Nat) (cs : List Char), '[' ∉ cs → subScan m fuel cs = cs := by
  intro fuel
  induction fuel with
  | zero => intro cs _; rfl
  | succ fuel ih =>
    intro cs h
    cases cs with
    | nil => rfl
    | cons c cs =>
      have h2 : '[' ∉ cs := fun hm2 => h (List.mem_cons_of_mem c hm2)
      simp only [subScan, hm (c :: cs) h, ih cs h2]

theorem subRefDefs_eq_self :
    ∀ (fuel : Nat) (b : Bool) (cs : List Char), '[' ∉ cs →
      subRefDefs fuel b cs = cs := by
  intro fuel
  induction fuel with
  | zero => intro b cs _; rfl
  | succ fuel ih =>
    intro b cs h
    cases cs with
    | nil => rfl
    | cons c cs =>
      have h2 : '[' ∉ cs := fun hm2 => h (List.mem_cons_of_mem c hm2)
      cases b with
      | false => simp [subRefDefs, ih _ cs h2]
      | true => simp [subRefDefs, matchRefDef_eq_none h, ih _ cs h2]

theorem remove_markdown_links_eq_self {s : String} (h : '[' ∉ s.data) :
    remove_markdown_links s = s := by
  simp only [remove_markdown_links]
  rw [subScan_eq_self matchInlineLink (fun _ => matchInlineLink_eq_none) _ _ h,
    subScan_eq_self matchRefLink (fun _ => matchRefLink_eq_none) _ _ h,
    subRefDefs_eq_self _ _ _ h,
    subScan_eq_self matchImage (fun _ => matchImage_eq_none) _ _ h,
    subScan_eq_self matchEmptyLink (fun _ => matchEmptyLink_eq_none) _ _ h]

/-! ## Claims C7 and C8 -/

/-- C7 counterexample: the spec's own example — quote `"Revenue rose 10%"`
against a page containing `"revenue rose 10% year over year"` with
different letter case — yields `is_grounded = false`, because
`_check_grounding` filters to alphanumeric characters without lowercasing,
and the Python `in` test is case-sensitive. -/
theorem claim_C7_counterexample :
    (check_grounding (some "Revenue rose 10%")
        "the revenue rose 10% year over year, reports say").1 = false := by
  decide

/-- C7 (amended): for a non-empty quote, `_check_grounding` returns `true`
exactly when the quote's alphanumeric reduction occurs as a contiguous
substring of the alphanumeric reduction of the link-stripped page text —
a case-SENSITIVE comparison, robust to whitespace and punctuation
differences only; a missing or empty quote yields `(false, none)`. -/
theorem claim_C7_amended (g page : String) (hg : g ≠ "") :
    ((check_grounding (some g) page).1 = true ↔
      g.data.filter Char.isAlphanum <:+:
        (remove_markdown_links page).data.filter Char.isAlphanum) ∧
    check_grounding none page = (false, none) ∧
    check_grounding (some "") page = (false, none) := by
  refine ⟨?_, rfl, rfl⟩
  simp [check_grounding, hg, containsSub_iff]

/-- C7 witness: the amended theorem applied at the spec's example with the
letter case actually matching, where grounding does hold despite the
punctuation differences. -/
theorem claim_C7_witness :
    ("revenue rose 10%" : String) ≠ "" ∧
    (((check_grounding (some "revenue rose 10%")
          "intro, revenue rose 10% -- year over year.").1 = true ↔
        ("revenue rose 10%" : String).data.filter Char.isAlphanum <:+:
          (remove_markdown_links "intro, revenue rose 10% -- year over year.").data.filter
            Char.isAlphanum) ∧
      check_grounding none "intro, revenue rose 10% -- year over year." = (false, none) ∧
      check_grounding (some "") "intro, revenue rose 10% -- year over year." = (false, none)) :=
  ⟨by decide, claim_C7_amended _ _ (by decide)⟩

/-- C8 counterexample: `_remove_markdown_links` is not idempotent.  On
`"[a[b](c)](d)"` the first pass yields `"a[b](d)"` (the inner link's
closing bracket truncates the outer link text), and a second pass strips
the remaining link down to `"ab"`. -/
theorem claim_C8_counterexample :
    remove_markdown_links (remove_markdown_links "[a[b](c)](d)") ≠
      remove_markdown_links "[a[b](c)](d)" := by
  decide

/-- C8 (amended): stripping markdown is not idempotent in general — nested
bracket structure can survive one pass and be stripped by the next — but on
text containing no `[` character every pass is a no-op, so re-stripping
already bracket-free text is a no-op. -/
theorem claim_C8_amended (s : String) (h : '[' ∉ s.data) :
    remove_markdown_links s = s ∧
    remove_markdown_links (remove_markdown_links s) = remove_markdown_links s := by
  have h1 := remove_markdown_links_eq_self h
  exact ⟨h1, by rw [h1]; exact h1⟩

/-- C8 witness: the amended theorem applied to a concrete bracket-free
page text. -/
theorem claim_C8_witness :
    '[' ∉ ("plain text, no links." : String).data ∧
    (remove_markdown_links "plain text, no links." = "plain text, no links." ∧
      remove_markdown_links (remove_markdown_links "plain text, no links.") =
        remove_markdown_links "plain text, no links.") :=
  ⟨by decide, claim_C8_amended _ (by decide)⟩

/-! ## `_get_date_chunks` (webpage_retrieval.py)

Calendar dates are represented by their proleptic-Gregorian ordinals
(`datetime.date.toordinal`: 0001-01-01 is day 1); `datetime` subtraction
and `timedelta` addition are ordinal arithmetic.  `strptime` with format
`"%Y-%m-%d"` is embedded as `parse_date` (exactly four digits for `%Y`,
one or two digits for `%m` and `%d`, numeric validity enforced as by the
`datetime` constructor), and `strftime` as `format_date`. -/

/-- Gregorian leap-year rule. -/
def is_leap_year (y : Nat) : Bool :=
  (y % 4 == 0 && y % 100 != 0) || y % 400 == 0

/-- Length in days of month `m` of year `y`. -/
def days_in_month (y m : Nat) : Nat :=
  if m = 2 then (if is_leap_year y then 29 else 28)
  else if m = 4 ∨ m = 6 ∨ m = 9 ∨ m = 11 then 30
  else 31

/-- Days in year `y` before month `m`. -/
def days_before_month (y m : Nat) : Nat :=
  (List.range (m - 1)).foldl (fun acc i => acc + days_in_month y (i + 1)) 0

/-- Proleptic-Gregorian ordinal of a `(year, month, day)` triple
(0001-01-01 is day 1), as in `datetime.date.toordinal`. -/
def to_ordinal (ymd : Nat × Nat × Nat) : Nat :=
  365 * (ymd.1 - 1) + (ymd.1 - 1) / 4 - (ymd.1 - 1) / 100 + (ymd.1 - 1) / 400 +
    days_before_month ymd.1 ymd.2.1 + ymd.2.2

/-- Inverse of `to_ordinal` for ordinals of valid dates (the civil-from-days
algorithm, shifted so all quantities stay in `Nat`). -/
def from_ordinal (n : Nat) : Nat × Nat × Nat :=
  let z := n + 305
  let era := z / 146097
  let doe := z % 146097
  let yoe := (doe - doe / 1460 + doe / 36524 - doe / 146096) / 365
  let y := yoe + era * 400
  let doy := doe - (365 * yoe + yoe / 4 - yoe / 100)
  let mp := (5 * doy + 2) / 153
  let d := doy - (153 * mp + 2) / 5 + 1
  let m := if mp < 10 then mp + 3 else mp - 9
  (if m ≤ 2 then y + 1 else y, m, d)

/-- Digit-list check. -/
def isDigitList (l : List Char) : Bool := l.all Char.isDigit

/-- Numeric value of a digit list. -/
def digitsToNat (l : List Char) : Nat :=
  l.foldl (fun acc c => acc * 10 + (c.toNat - 48)) 0

/-- Embedding of `datetime.strptime(s, "%Y-%m-%d")`: `none` models the
`ValueError` raised on malformed input or an invalid calendar date. -/
def parse_date (s : String) : Option (Nat × Nat × Nat) :=
  match s.data.splitOn '-' with
  | [ys, ms, ds] =>
    if ys.length = 4 ∧ isDigitList ys ∧
        1 ≤ ms.length ∧ ms.length ≤ 2 ∧ isDigitList ms ∧
        1 ≤ ds.length ∧ ds.length ≤ 2 ∧ isDigitList ds then
      let y := digitsToNat ys
      let m := digitsToNat ms
      let d := digitsToNat ds
      if 1 ≤ y ∧ 1 ≤ m ∧ m ≤ 12 ∧ 1 ≤ d ∧ d ≤ days_in_month y m then
        some (y, m, d)
      else none
    else none
  | _ => none

/-- Left-pad a number with zeros to the given width. -/
def padNum (width n : Nat) : List Char :=
  let s := Nat.toDigits 10 n
  List.replicate (width - s.length) '0' ++ s

/-- Embedding of `strftime("%Y-%m-%d")`. -/
def format_date (ymd : Nat × Nat × Nat) : String :=
  String.mk (padNum 4 ymd.1 ++ '-' :: padNum 2 ymd.2.1 ++ '-' :: padNum 2 ymd.2.2)

/-- The local `total_days` of `_get_date_chunks`:
`(end - start).days + 1` on ordinals. -/
def total_days (s e : Int) : Int := e - s + 1

/-- The local `num_chunks` of `_get_date_chunks`:
`max(1, (total_days + 366 - 1) // 366)`. -/
def num_chunks (s e : Int) : Int := max 1 ((total_days s e + 365) / 366)

/-- The local `days_per_chunk` of `_get_date_chunks`:
`total_days // num_chunks`. -/
def days_per_chunk (s e : Int) : Int := total_days s e / num_chunks s e

/-- The chunk-building loop of `_get_date_chunks`, by remaining iteration
count: on the last iteration the chunk end is the overall `end` date,
otherwise it is `current_start + days_per_chunk - 1`, and the next chunk
starts the day after. -/
def chunksLoop (e dpc : Int) : Int → Nat → List (Int × Int)
  | _, 0 => []
  | cur, k + 1 =>
    if k = 0 then [(cur, e)]
    else (cur, cur + dpc - 1) :: chunksLoop e dpc (cur + dpc) k

/-- Embedding of `_get_date_chunks` on ordinals (after `strptime`, before
`strftime`). -/
def date_chunks_core (s e : Int) : List (Int × Int) :=
  chunksLoop e (days_per_chunk s e) s (num_chunks s e).toNat

/-- Embedding of `_get_date_chunks` at the string level. `Except.error`
models the `ValueError` raised by `strptime`; note the source has no check
that `end_date` is not before `start_date`. -/
def get_date_chunks (start_date end_date : String) :
    Except String (List (String × String)) :=
  match parse_date start_date, parse_date end_date with
  | some a, some b =>
    .ok ((date_chunks_core (to_ordinal a : Int) (to_ordinal b : Int)).map
      (fun c => (format_date (from_ordinal c.1.toNat),
                 format_date (from_ordinal c.2.toNat))))
  | _, _ => .error "time data does not match format Y-m-d"

/-! ## Structure of the chunk-building loop -/

theorem chunksLoop_length (e dpc : Int) :
    ∀ (k : Nat) (cur : Int), (chunksLoop e dpc cur k).length = k := by
  intro k
  induction k with
  | zero => intro cur; rfl
  | succ k ih =>
    intro cur
    by_cases hk : k = 0
    · subst hk; rfl
    · simp [chunksLoop, hk, ih]

theorem chunksLoop_headFst (e dpc : Int) (k : Nat) (hk : k ≠ 0) (cur : Int) :
    (chunksLoop e dpc cur k).head?.map Prod.fst = some cur := by
  cases k with
  | zero => exact absurd rfl hk
  | succ k =>
    by_cases hk0 : k = 0
    · subst hk0; rfl
    · simp [chunksLoop, hk0]

theorem chunksLoop_getLast (e dpc : Int) :
    ∀ (j : Nat) (cur : Int),
      (chunksLoop e dpc cur (j + 1)).getLast? = some (cur + j * dpc, e) := by
  intro j
  induction j with
  | zero => intro cur; simp [chunksLoop]
  | succ j ih =>
    intro cur
    have hrw : chunksLoop e dpc cur (j + 1 + 1) =
        (cur, cur + dpc - 1) :: chunksLoop e dpc (cur + dpc) (j + 1) := by
      simp [chunksLoop]
    rw [hrw]
    cases htl : chunksLoop e dpc (cur + dpc) (j + 1) with
    | nil =>
      have := chunksLoop_length e dpc (j + 1) (cur + dpc)
      rw [htl] at this
      simp at this
    | cons x xs =>
      have hlast := ih (cur + dpc)
      rw [htl] at hlast
      rw [List.getLast?_cons_cons, hlast]
      have harith : cur + dpc + (j : Int) * dpc = cur + ((j : Nat) + 1 : Nat) * dpc := by
        push_cast
        ring
      rw [harith]

theorem chunksLoop_chain (e dpc : Int) :
    ∀ (k : Nat) (cur : Int),
      List.Chain' (fun a b : Int × Int => b.1 = a.2 + 1) (chunksLoop e dpc cur k) := by
  intro k
  induction k with
  | zero => intro cur; simp [chunksLoop]
  | succ k ih =>
    intro cur
    by_cases hk : k = 0
    · subst hk; simp [chunksLoop]
    · have hrw : chunksLoop e dpc cur (k + 1) =
          (cur, cur + dpc - 1) :: chunksLoop e dpc (cur + dpc) k := by
        simp [chunksLoop, hk]
      rw [hrw, List.chain'_cons']
      refine ⟨?_, ih (cur + dpc)⟩
      intro y hy
      have hh := chunksLoop_headFst e dpc k hk (cur + dpc)
      rw [Option.mem_def] at hy
      rw [hy] at hh
      have hy1 : y.1 = cur + dpc := by simpa using hh
      show y.1 = (cur, cur + dpc - 1).2 + 1
      rw [hy1]
      ring

theorem chunksLoop_mem_span (e dpc : Int) :
    ∀ (j : Nat) (cur : Int) (c : Int × Int),
      c ∈ chunksLoop e dpc cur (j + 1) →
      c.2 - c.1 + 1 = dpc ∨ (c.1 = cur + j * dpc ∧ c.2 = e) := by
  intro j
  induction j with
  | zero =>
    intro cur c hc
    simp [chunksLoop] at hc
    subst hc
    right
    simp
  | succ j ih =>
    intro cur c hc
    have hrw : chunksLoop e dpc cur (j + 1 + 1) =
        (cur, cur + dpc - 1) :: chunksLoop e dpc (cur + dpc) (j + 1) := by
      simp [chunksLoop]
    rw [hrw] at hc
    rcases List.mem_cons.mp hc with h1 | h2
    · left
      subst h1
      ring
    · rcases ih (cur + dpc) c h2 with h3 | ⟨h4, h5⟩
      · exact Or.inl h3
      · right
        refine ⟨?_, h5⟩
        rw [h4]
        push_cast
        ring

/-! ## Arithmetic facts about the chunk parameters -/

theorem date_chunks_arith (s e : Int) (h : s ≤ e) :
    1 ≤ num_chunks s e ∧ num_chunks s e ≤ total_days s e ∧
    1 ≤ days_per_chunk s e ∧ days_per_chunk s e ≤ 366 ∧
    num_chunks s e * days_per_chunk s e ≤ total_days s e ∧
    total_days s e - (num_chunks s e - 1) * days_per_chunk s e ≤
      366 + (num_chunks s e - 1) := by
  have hT : 1 ≤ total_days s e := by unfold total_days; omega
  have h366 : (0 : Int) < 366 := by norm_num
  have hN1 : 1 ≤ (total_days s e + 365) / 366 := by
    rw [Int.le_ediv_iff_mul_le h366]
    linarith
  have hNeq : num_chunks s e = (total_days s e + 365) / 366 :=
    max_eq_right hN1
  have hNpos : 0 < num_chunks s e := by rw [hNeq]; linarith
  have hNleT : num_chunks s e ≤ total_days s e := by
    rw [hNeq]
    have h2 : (total_days s e + 365) / 366 < total_days s e + 1 := by
      rw [Int.ediv_lt_iff_lt_mul h366]
      linarith
    linarith
  have hTle : total_days s e ≤ 366 * num_chunks s e := by
    rw [hNeq]
    have hadd := Int.ediv_add_emod (total_days s e + 365) 366
    have hmod : (total_days s e + 365) % 366 < 366 := Int.emod_lt_of_pos _ h366
    linarith
  have hD1 : 1 ≤ days_per_chunk s e := by
    unfold days_per_chunk
    rw [Int.le_ediv_iff_mul_le hNpos]
    linarith
  have hD366 : days_per_chunk s e ≤ 366 := by
    unfold days_per_chunk
    have h3 : total_days s e / num_chunks s e < 367 := by
      rw [Int.ediv_lt_iff_lt_mul hNpos]
      linarith
    linarith
  have hND : num_chunks s e * days_per_chunk s e ≤ total_days s e := by
    unfold days_per_chunk
    have h4 := Int.ediv_mul_le (total_days s e) (ne_of_gt hNpos)
    linarith [mul_comm (num_chunks s e) (total_days s e / num_chunks s e)]
  have hlast : total_days s e - (num_chunks s e - 1) * days_per_chunk s e ≤
      366 + (num_chunks s e - 1) := by
    have hadd := Int.ediv_add_emod (total_days s e) (num_chunks s e)
    have hmod : total_days s e % num_chunks s e < num_chunks s e :=
      Int.emod_lt_of_pos _ hNpos
    have hexp : (num_chunks s e - 1) * days_per_chunk s e =
        num_chunks s e * days_per_chunk s e - days_per_chunk s e := by ring
    have hD366b : total_days s e / num_chunks s e ≤ 366 := hD366
    unfold days_per_chunk at hexp ⊢
    linarith
  exact ⟨by linarith, hNleT, hD1, hD366, hND, hlast⟩

/-! ## Claims C2, C3, C4 -/

/-- C3: for ordinals `s ≤ e`, the chunk list built by `_get_date_chunks`
is non-empty, starts at `s`, ends at `e`, each subsequent chunk starts
exactly one day after the previous chunk's end (no gaps, no overlaps), and
every chunk is well-formed (`start ≤ end`); `get_date_chunks` returns
exactly these chunks formatted as date strings. -/
theorem claim_C3_partition (s e : Int) (h : s ≤ e) :
    date_chunks_core s e ≠ [] ∧
    (date_chunks_core s e).head?.map Prod.fst = some s ∧
    (date_chunks_core s e).getLast?.map Prod.snd = some e ∧
    List.Chain' (fun a b : Int × Int => b.1 = a.2 + 1) (date_chunks_core s e) ∧
    ∀ c ∈ date_chunks_core s e, c.1 ≤ c.2 := by
  obtain ⟨hN1, hNleT, hD1, hD366, hND, _⟩ := date_chunks_arith s e h
  have hNnn : (0 : Int) ≤ num_chunks s e := by linarith
  have hkN : ((num_chunks s e).toNat : Int) = num_chunks s e :=
    Int.toNat_of_nonneg hNnn
  obtain ⟨j, hj⟩ : ∃ j, (num_chunks s e).toNat = j + 1 := by
    refine ⟨(num_chunks s e).toNat - 1, ?_⟩
    omega
  have hjN : (j : Int) = num_chunks s e - 1 := by omega
  have hcore : date_chunks_core s e =
      chunksLoop e (days_per_chunk s e) s (j + 1) := by
    unfold date_chunks_core
    rw [hj]
  have hlen := chunksLoop_length e (days_per_chunk s e) (j + 1) s
  have hlastle : s + (j : Int) * days_per_chunk s e ≤ e := by
    rw [hjN]
    have hexp : (num_chunks s e - 1) * days_per_chunk s e =
        num_chunks s e * days_per_chunk s e - days_per_chunk s e := by ring
    have hTdef : total_days s e = e - s + 1 := rfl
    linarith
  refine ⟨?_, ?_, ?_, ?_, ?_⟩
  · rw [hcore]
    intro hnil
    rw [hnil] at hlen
    simp at hlen
  · rw [hcore]
    exact chunksLoop_headFst e (days_per_chunk s e) (j + 1) (by omega) s
  · rw [hcore, chunksLoop_getLast]
    rfl
  · rw [hcore]
    exact chunksLoop_chain e (days_per_chunk s e) (j + 1) s
  · intro c hc
    rw [hcore] at hc
    rcases chunksLoop_mem_span e (days_per_chunk s e) j s c hc with hs | ⟨h1, h2⟩
    · linarith
    · rw [h1, h2]
      exact hlastle

/-- C3 witness: the partition theorem applied to the concrete 801-day
ordinal range `[0, 800]` (three chunks). -/
theorem claim_C3_witness :
    (0 : Int) ≤ 800 ∧
    (date_chunks_core 0 800 ≠ [] ∧
      (date_chunks_core 0 800).head?.map Prod.fst = some 0 ∧
      (date_chunks_core 0 800).getLast?.map Prod.snd = some 800 ∧
      List.Chain' (fun a b : Int × Int => b.1 = a.2 + 1) (date_chunks_core 0 800) ∧
      ∀ c ∈ date_chunks_core 0 800, c.1 ≤ c.2) :=
  ⟨by decide, claim_C3_partition 0 800 (by decide)⟩

/-- C2 counterexample: `_get_date_chunks("2020-01-01", "2023-01-01")` (a
1097-day range) produces three chunks whose last one runs from 2021-12-31
to 2023-01-01 — an inclusive span of 367 days, exceeding 366.  The final
chunk absorbs the division remainder (1097 = 3·365 + 2) on top of the
365-day quotient, and 365 + 2 = 367 > 366. -/
theorem claim_C2_counterexample :
    get_date_chunks "2020-01-01" "2023-01-01" =
      Except.ok [("2020-01-01", "2020-12-30"), ("2020-12-31", "2021-12-30"),
        ("2021-12-31", "2023-01-01")] ∧
    (date_chunks_core (to_ordinal (2020, 1, 1) : Int)
        (to_ordinal (2023, 1, 1) : Int)).getLast? =
      some ((to_ordinal (2021, 12, 31) : Int), (to_ordinal (2023, 1, 1) : Int)) ∧
    (to_ordinal (2023, 1, 1) : Int) - (to_ordinal (2021, 12, 31) : Int) + 1 = 367 :=
  ⟨rfl, by decide⟩

/-- C2 (amended): for ordinals `s ≤ e`, every non-final chunk spans exactly
`days_per_chunk s e ≤ 366` days, and every chunk spans at most
`366 + (num_chunks s e - 1)` days; the bound 366 claimed by the spec can be
exceeded by the final chunk, which absorbs the division remainder. -/
theorem claim_C2_amended (s e : Int) (h : s ≤ e) :
    days_per_chunk s e ≤ 366 ∧
    (∀ c ∈ date_chunks_core s e,
      c.2 - c.1 + 1 = days_per_chunk s e ∨
        (c.1 = s + (num_chunks s e - 1) * days_per_chunk s e ∧ c.2 = e)) ∧
    ∀ c ∈ date_chunks_core s e,
      c.2 - c.1 + 1 ≤ 366 + (num_chunks s e - 1) := by
  obtain ⟨hN1, hNleT, hD1, hD366, hND, hlast⟩ := date_chunks_arith s e h
  have hNnn : (0 : Int) ≤ num_chunks s e := by linarith
  obtain ⟨j, hj⟩ : ∃ j, (num_chunks s e).toNat = j + 1 := by
    refine ⟨(num_chunks s e).toNat - 1, ?_⟩
    omega
  have hjN : (j : Int) = num_chunks s e - 1 := by omega
  have hcore : date_chunks_core s e =
      chunksLoop e (days_per_chunk s e) s (j + 1) := by
    unfold date_chunks_core
    rw [hj]
  have hspan : ∀ c ∈ date_chunks_core s e,
      c.2 - c.1 + 1 = days_per_chunk s e ∨
        (c.1 = s + (num_chunks s e - 1) * days_per_chunk s e ∧ c.2 = e) := by
    intro c hc
    rw [hcore] at hc
    rcases chunksLoop_mem_span e (days_per_chunk s e) j s c hc with hs | ⟨h1, h2⟩
    · exact Or.inl hs
    · exact Or.inr ⟨by rw [h1, hjN], h2⟩
  refine ⟨hD366, hspan, ?_⟩
  intro c hc
  rcases hspan c hc with hs | ⟨h1, h2⟩
  · linarith
  · have hTdef : total_days s e = e - s + 1 := rfl
    rw [h1, h2] at *
    linarith

/-- C2 witness: the amended theorem applied to the ordinal range
`[0, 800]`. -/
theorem claim_C2_amended_witness :
    (0 : Int) ≤ 800 ∧
    (days_per_chunk 0 800 ≤ 366 ∧
      (∀ c ∈ date_chunks_core 0 800,
        c.2 - c.1 + 1 = days_per_chunk 0 800 ∨
          (c.1 = 0 + (num_chunks 0 800 - 1) * days_per_chunk 0 800 ∧ c.2 = 800)) ∧
      ∀ c ∈ date_chunks_core 0 800,
        c.2 - c.1 + 1 ≤ 366 + (num_chunks 0 800 - 1)) :=
  ⟨by decide, claim_C2_amended 0 800 (by decide)⟩

/-- C4 counterexample: with `end_date` strictly before `start_date` (both
valid calendar dates), `_get_date_chunks` does not fail; it returns a
single reversed chunk `{start: start_date, end: end_date}`. -/
theorem claim_C4_counterexample :
    get_date_chunks "2020-01-02" "2020-01-01" =
      Except.ok [("2020-01-02", "2020-01-01")] := rfl

/-- C4 (amended): `_get_date_chunks` fails with an input error when either
input fails to parse as a valid `%Y-%m-%d` calendar date, but when both
parse and `end_date` precedes `start_date` it does NOT fail: the chunk
count degenerates to 1 and it returns the single (reversed) chunk
`{start_date, end_date}`. -/
theorem claim_C4_amended (sd ed : String) :
    (parse_date sd = none ∨ parse_date ed = none →
      ∃ msg, get_date_chunks sd ed = Except.error msg) ∧
    (∀ a b, parse_date sd = some a → parse_date ed = some b →
      (to_ordinal b : Int) < (to_ordinal a : Int) →
      get_date_chunks sd ed =
        Except.ok [(format_date (from_ordinal (to_ordinal a)),
                    format_date (from_ordinal (to_ordinal b)))]) := by
  constructor
  · intro hbad
    unfold get_date_chunks
    rcases hbad with hs | he
    · rw [hs]
      exact ⟨_, rfl⟩
    · rw [he]
      cases parse_date sd <;> exact ⟨_, rfl⟩
  · intro a b ha hb hlt
    have hN : num_chunks (to_ordinal a : Int) (to_ordinal b : Int) = 1 := by
      have hT : total_days (to_ordinal a : Int) (to_ordinal b : Int) ≤ 0 := by
        unfold total_days
        omega
      have hdivle : (total_days (to_ordinal a : Int) (to_ordinal b : Int) + 365) / 366 ≤
          (365 : Int) / 366 :=
        Int.ediv_le_ediv (by norm_num) (by linarith)
      have h365 : (365 : Int) / 366 = 0 := by decide
      unfold num_chunks
      rw [max_eq_left (by rw [h365] at hdivle; linarith)]
    have hcore : date_chunks_core (to_ordinal a : Int) (to_ordinal b : Int) =
        [((to_ordinal a : Int), (to_ordinal b : Int))] := by
      unfold date_chunks_core
      rw [hN]
      rfl
    unfold get_date_chunks
    simp only [ha, hb]
    rw [hcore]
    simp

/-- C4 witness: the amended theorem applied to a malformed date and to the
reversed pair `("2020-01-02", "2020-01-01")`. -/
theorem claim_C4_witness :
    (∃ msg, get_date_chunks "2020-13-05" "2020-01-01" = Except.error msg) ∧
    get_date_chunks "2020-01-02" "2020-01-01" =
      Except.ok [("2020-01-02", "2020-01-01")] := by
  constructor
  · exact (claim_C4_amended "2020-13-05" "2020-01-01").1 (Or.inl (by decide))
  · have h := (claim_C4_amended "2020-01-02" "2020-01-01").2 (2020, 1, 2) (2020, 1, 1)
      (by decide) (by decide) (by decide)
    exact h.trans (by rfl)

/-! ## `_expand_query_templates` (webpage_retrieval.py)

Python dicts are embedded as association lists in insertion order with
last-write-wins updates (`dictUpsert`/`buildDict`/`lookupD`).  The set
`placeholders` is iterated by Python in an unspecified order;
the embedding fixes the normalized-dictionary insertion order, one
admissible order, which determines the tuple layout of each variable
combination exactly as `list(placeholders)` does in the source. -/

/-- Insert or update a key in an association list (Python dict assignment:
value replaced in place, insertion order preserved, new keys appended). -/
def dictUpsert {α : Type} : List (String × α) → String → α → List (String × α)
  | [], k, v => [(k, v)]
  | (k2, v2) :: rest, k, v =>
    if k2 = k then (k2, v) :: rest else (k2, v2) :: dictUpsert rest k v

/-- Build a dict from a list of key-value pairs (Python dict comprehension:
later duplicate keys overwrite earlier values). -/
def buildDict {α : Type} (l : List (String × α)) : List (String × α) :=
  l.foldl (fun m kv => dictUpsert m kv.1 kv.2) []

/-- Dict lookup. -/
def lookupD {α : Type} : List (String × α) → String → Option α
  | [], _ => none
  | (k2, v) :: rest, k => if k2 = k then some v else lookupD rest k

/-- Python `k.lower().replace(" ", "_")` (ASCII). -/
def normalizeVarName (s : String) : String :=
  String.mk ((s.data.map Char.toLower).map (fun c => if c = ' ' then '_' else c))

/-- The placeholder token `"{" + var_name + "}"`. -/
def placeholderToken (varName : String) : List Char :=
  '{' :: varName.data ++ ['}']

/-- Python `str.lower` (ASCII). -/
def lowerChars (l : List Char) : List Char := l.map Char.toLower

/-- Matcher for one literal occurrence, used to embed Python
`str.replace` (which scans left to right and does not rescan the
replacement). -/
def matchLit (needle rep : List Char) (cs : List Char) :
    Option (List Char × List Char) :=
  if !needle.isEmpty && charsStartWith needle cs then
    some (rep, cs.drop needle.length)
  else none

/-- Python `str.replace(needle, rep)` on character lists. -/
def replaceAll (needle rep cs : List Char) : List Char :=
  subScan (matchLit needle rep) cs.length cs

/-- The normalized variable names whose `{name}` token occurs in the
lowercased template (the source's `placeholders` set, in normalized-dict
order). -/
def referencedVars (nvn : List (String × List String)) (template : String) :
    List String :=
  (nvn.map Prod.fst).filter
    (fun n => containsSub (placeholderToken n) (lowerChars template.data))

/-- `itertools.product` over a list of value lists (rightmost factor
varies fastest). -/
def listProduct {α : Type} : List (List α) → List (List α)
  | [] => [[]]
  | vs :: rest => vs.flatMap (fun v => (listProduct rest).map (fun combo => v :: combo))

/-- Substitute one combination into a template: successive
`query.replace("{" + name + "}", value)` over the zipped names/values. -/
def substituteCombo (template : String) (varNames : List String)
    (combo : List String) : String :=
  String.mk ((varNames.zip combo).foldl
    (fun q nv => replaceAll (placeholderToken nv.1) nv.2.data q) template.data)

/-- The per-template body of the expansion loop: detect referenced
variables; a template with none passes through once with no combination;
otherwise emit one `(query, combination)` pair per element of the product
of the referenced variables' value lists. -/
def expandTemplate (nvn : List (String × List String)) (template : String) :
    List (String × Option (List String)) :=
  let varNames := referencedVars nvn template
  if varNames.isEmpty then [(template, none)]
  else
    let varValues := varNames.map (fun n => (lookupD nvn n).getD [])
    (listProduct varValues).map
      (fun combo => (substituteCombo template varNames combo, some combo))

/-- Embedding of `_expand_query_templates`.  The `variables` dict is the
association list `vars`; a value of `[]` models both Python `None` and the
empty dict (both falsy). -/
def expand_query_templates (templates : List String)
    (vars : List (String × List String)) :
    List String × List (Option (List String)) :=
  if vars.isEmpty then (templates, templates.map (fun _ => none))
  else
    let nvn := buildDict (vars.map (fun kv => (normalizeVarName kv.1, kv.2)))
    let pairs := templates.flatMap (expandTemplate nvn)
    (pairs.map Prod.fst, pairs.map Prod.snd)

/-! ## `_get_variable_value_for_country_assignment` and the per-value
override of `_process_queries_and_stream_results` (webpage_retrieval.py) -/

/-- Embedding of `_get_variable_value_for_country_assignment`: normalize
the variable names, find the original name for the target, take its
position among `search_query_variables` keys, and index the combination
tuple at that position (returning `None` when the index is out of range). -/
def get_variable_value_for_country_assignment
    (variableValueCombo : Option (List String))
    (variableNameWithAssignedCountries : String)
    (searchQueryVariables : List (String × List String)) : Option String :=
  match variableValueCombo with
  | none => none
  | some combo =>
    if combo.isEmpty || searchQueryVariables.isEmpty then none
    else
      let normalizedVariableNames :=
        buildDict (searchQueryVariables.map (fun kv => (normalizeVarName kv.1, kv.1)))
      let targetNormalizedName := normalizeVarName variableNameWithAssignedCountries
      match lookupD normalizedVariableNames targetNormalizedName with
      | none => none
      | some originalVarName =>
        let varNames := searchQueryVariables.map Prod.fst
        match varNames.findIdx? (fun n => n == originalVarName) with
        | none => none
        | some varIndex =>
          if h : varIndex < combo.length then some (combo.get ⟨varIndex, h⟩)
          else none

/-- Embedding of the per-query override block of
`_process_queries_and_stream_results` (lines 542-575): starting from the
global Media Cloud source list and geolocation country, when a designated
variable and a combination are both present (and truthy), resolve the
variable's value for this combination and, where per-value mappings
contain that value, substitute the per-value source list and/or
geolocation country. -/
def resolveCountryOverride
    (mediaCloudSources : Option (List String)) (geolocationCountry : Option String)
    (variableNameWithAssignedCountries : Option String)
    (variableValuesMediaCloudSources : Option (List (String × List String)))
    (variableValuesGeolocationCountries : Option (List (String × String)))
    (searchQueryVariables : List (String × List String))
    (variableValueCombo : Option (List String)) :
    Option (List String) × Option String :=
  match variableNameWithAssignedCountries, variableValueCombo with
  | some name, some combo =>
    if name = "" ∨ combo = [] then (mediaCloudSources, geolocationCountry)
    else
      match get_variable_value_for_country_assignment (some combo) name
          searchQueryVariables with
      | none => (mediaCloudSources, geolocationCountry)
      | some v =>
        if v = "" then (mediaCloudSources, geolocationCountry)
        else
          let cur1 :=
            match variableValuesMediaCloudSources with
            | none => mediaCloudSources
            | some dict =>
              match lookupD dict v with
              | some srcs => some srcs
              | none => mediaCloudSources
          let cur2 :=
            match variableValuesGeolocationCountries with
            | none => geolocationCountry
            | some dict =>
              match lookupD dict v with
              | some c => some c
              | none => geolocationCountry
          (cur1, cur2)
  | _, _ => (mediaCloudSources, geolocationCountry)

/-! ## Dictionary and product lemmas -/

theorem dictUpsert_fresh {α : Type} :
    ∀ (m : List (String × α)) (k : String) (v : α),
      k ∉ m.map Prod.fst → dictUpsert m k v = m ++ [(k, v)] := by
  intro m
  induction m with
  | nil => intro k v _; rfl
  | cons kv rest ih =>
    intro k v h
    obtain ⟨k2, v2⟩ := kv
    simp only [List.map_cons, List.mem_cons, not_or] at h
    have hne : ¬(k2 = k) := fun e => h.1 e.symm
    simp only [dictUpsert, if_neg hne, ih k v h.2, List.cons_append]

theorem foldl_dictUpsert_eq {α : Type} :
    ∀ (l acc : List (String × α)),
      (l.map Prod.fst).Nodup →
      (∀ k ∈ l.map Prod.fst, k ∉ acc.map Prod.fst) →
      l.foldl (fun m kv => dictUpsert m kv.1 kv.2) acc = acc ++ l := by
  intro l
  induction l with
  | nil => intro acc _ _; simp
  | cons kv rest ih =>
    intro acc hnd hfr
    obtain ⟨k, v⟩ := kv
    simp only [List.foldl_cons]
    rw [dictUpsert_fresh acc k v (hfr k (by simp))]
    simp only [List.map_cons, List.nodup_cons] at hnd
    rw [ih (acc ++ [(k, v)]) hnd.2 ?_]
    · simp
    · intro k2 hk2
      simp only [List.map_append, List.mem_append, List.map_cons, List.map_nil,
        List.mem_singleton, not_or]
      refine ⟨hfr k2 (by simp [hk2]), ?_⟩
      intro he
      exact hnd.1 (he ▸ hk2)

theorem buildDict_eq_self {α : Type} (l : List (String × α))
    (h : (l.map Prod.fst).Nodup) : buildDict l = l := by
  simpa [buildDict] using foldl_dictUpsert_eq l [] h (by simp)

theorem lookupD_eq_some_of_mem {α : Type} :
    ∀ (l : List (String × α)) (k : String) (v : α),
      (l.map Prod.fst).Nodup → (k, v) ∈ l → lookupD l k = some v := by
  intro l
  induction l with
  | nil => intro k v _ h; simp at h
  | cons kv rest ih =>
    intro k v hnd hm
    obtain ⟨k2, v2⟩ := kv
    simp only [List.map_cons, List.nodup_cons] at hnd
    rcases List.mem_cons.mp hm with he | ht
    · obtain ⟨h1, h2⟩ := Prod.mk.injEq .. ▸ he
      subst h1
      subst h2
      simp [lookupD]
    · have hk : ¬(k2 = k) := by
        intro he2
        subst he2
        exact hnd.1 (List.mem_map.mpr ⟨(k2, v), ht, rfl⟩)
      simp only [lookupD, if_neg hk]
      exact ih k v hnd.2 ht

theorem lookupD_mem {α : Type} :
    ∀ (l : List (String × α)) (k : String),
      k ∈ l.map Prod.fst → ∃ v, lookupD l k = some v ∧ (k, v) ∈ l := by
  intro l
  induction l with
  | nil => intro k h; simp at h
  | cons kv rest ih =>
    intro k hk
    obtain ⟨k2, v2⟩ := kv
    by_cases he : k2 = k
    · subst he
      exact ⟨v2, by simp [lookupD], List.mem_cons_self _ _⟩
    · simp only [List.map_cons, List.mem_cons] at hk
      rcases hk with h1 | h2
      · exact absurd h1.symm he
      · obtain ⟨v, hv, hmem⟩ := ih k h2
        exact ⟨v, by simp [lookupD, he, hv], List.mem_cons_of_mem _ hmem⟩

theorem listProduct_length {α : Type} :
    ∀ L : List (List α), (listProduct L).length = (L.map List.length).prod := by
  intro L
  induction L with
  | nil => rfl
  | cons vs rest ih =>
    simp [listProduct, List.length_flatMap, Function.comp_def, ih,
      List.map_const', List.sum_replicate, smul_eq_mul]

theorem listProduct_mem {α : Type} :
    ∀ (L : List (List α)) (c : List α),
      c ∈ listProduct L ↔ List.Forall₂ (fun x xs => x ∈ xs) c L := by
  intro L
  induction L with
  | nil => intro c; simp [listProduct, List.forall₂_nil_right_iff]
  | cons vs rest ih =>
    intro c
    simp only [listProduct, List.mem_flatMap, List.mem_map,
      List.forall₂_cons_right_iff]
    constructor
    · rintro ⟨v, hv, t, ht, rfl⟩
      exact ⟨v, t, hv, (ih t).mp ht, rfl⟩
    · rintro ⟨v, t, hv, ht, rfl⟩
      exact ⟨v, hv, t, (ih t).mpr ht, rfl⟩

theorem listProduct_nodup {α : Type} :
    ∀ L : List (List α), (∀ l ∈ L, l.Nodup) → (listProduct L).Nodup := by
  intro L
  induction L with
  | nil => intro _; simp [listProduct]
  | cons vs rest ih =>
    intro h
    have hvs : vs.Nodup := h vs (by simp)
    have hrest := ih (fun l hl => h l (by simp [hl]))
    rw [listProduct, List.nodup_flatMap]
    constructor
    · intro v _
      exact hrest.map (fun t1 t2 e => by injection e)
    · refine hvs.imp ?_
      intro v v2 hne
      simp only [Function.onFun, List.Disjoint]
      intro x hx hx2
      simp only [List.mem_map] at hx hx2
      obtain ⟨t, _, rfl⟩ := hx
      obtain ⟨t2, _, he⟩ := hx2
      injection he with h1 _
      exact hne h1.symm

/-! ## Claims C5, C6, C9 -/

/-- The `variables` dict after key normalization, when no two keys collide
(the `normalized_variable_names` dict of the source). -/
def normalizedVars (vars : List (String × List String)) :
    List (String × List String) :=
  vars.map (fun kv => (normalizeVarName kv.1, kv.2))

/-- C5 counterexample: with a duplicated value in a value list
(`variables = {v: [A, A]}`, a legal non-empty variable set), the template
`{v}` yields the combination `(A,)` twice, so a combination does not
appear exactly once per template. -/
theorem claim_C5_counterexample :
    expand_query_templates ["{v}"] [("v", ["A", "A"])] =
      (["A", "A"], [some ["A"], some ["A"]]) ∧
    (expand_query_templates ["{v}"] [("v", ["A", "A"])]).2.count (some ["A"]) = 2 := by
  constructor
  · rfl
  · decide

/-- C5 (amended): for a non-empty variable set whose normalized names are
pairwise distinct and whose value lists are duplicate-free, the two
returned sequences have equal length; the output is the concatenation of
per-template expansions; the normalized dict maps each provided variable's
normalized name to its value list; and each template referencing variables
of cardinalities c1..ck yields exactly c1 ⬝ ... ⬝ ck pairs, with every
combination of referenced-variable values appearing exactly once, and a
template referencing no variable yields exactly `[(template, none)]`. -/
theorem claim_C5_amended (templates : List String)
    (vars : List (String × List String)) (hne : vars ≠ [])
    (hkeys : (vars.map (fun kv => normalizeVarName kv.1)).Nodup)
    (hvals : ∀ kv ∈ vars, kv.2.Nodup) :
    (expand_query_templates templates vars).1.length =
      (expand_query_templates templates vars).2.length ∧
    (expand_query_templates templates vars).2 =
      (templates.flatMap (expandTemplate (normalizedVars vars))).map Prod.snd ∧
    (∀ kv ∈ vars,
      lookupD (normalizedVars vars) (normalizeVarName kv.1) = some kv.2) ∧
    ∀ t : String,
      (expandTemplate (normalizedVars vars) t).length =
        ((referencedVars (normalizedVars vars) t).map
          (fun n => ((lookupD (normalizedVars vars) n).getD []).length)).prod ∧
      (referencedVars (normalizedVars vars) t = [] →
        expandTemplate (normalizedVars vars) t = [(t, none)]) ∧
      ((expandTemplate (normalizedVars vars) t).map Prod.snd).Nodup ∧
      ∀ combo : List String,
        some combo ∈ (expandTemplate (normalizedVars vars) t).map Prod.snd ↔
          (referencedVars (normalizedVars vars) t ≠ [] ∧
            List.Forall₂ (fun v n => v ∈ (lookupD (normalizedVars vars) n).getD [])
              combo (referencedVars (normalizedVars vars) t)) := by
  have hkeys2 : ((normalizedVars vars).map Prod.fst).Nodup := by
    simpa [normalizedVars, List.map_map, Function.comp_def] using hkeys
  have hbd : buildDict (vars.map (fun kv => (normalizeVarName kv.1, kv.2))) =
      normalizedVars vars :=
    buildDict_eq_self _ hkeys2
  have hvalNodup : ∀ n ∈ (normalizedVars vars).map Prod.fst,
      ((lookupD (normalizedVars vars) n).getD []).Nodup := by
    intro n hn
    obtain ⟨v, hv, hmem⟩ := lookupD_mem _ n hn
    rw [hv]
    simp only [Option.getD_some]
    simp only [normalizedVars, List.mem_map] at hmem
    obtain ⟨kv, hkv, he⟩ := hmem
    have : kv.2 = v := congrArg Prod.snd he
    exact this ▸ hvals kv hkv
  refine ⟨?_, ?_, ?_, ?_⟩
  · simp [expand_query_templates, List.isEmpty_iff, hne]
  · simp [expand_query_templates, List.isEmpty_iff, hne, hbd]
  · intro kv hkv
    exact lookupD_eq_some_of_mem _ _ _ hkeys2
      (List.mem_map.mpr ⟨kv, hkv, rfl⟩)
  · intro t
    by_cases h0 : referencedVars (normalizedVars vars) t = []
    · refine ⟨?_, fun _ => ?_, ?_, ?_⟩
      · simp [expandTemplate, h0]
      · simp [expandTemplate, h0]
      · simp [expandTemplate, h0]
      · intro combo
        simp [expandTemplate, h0]
    · have hrne : ¬(referencedVars (normalizedVars vars) t).isEmpty := by
        simp [List.isEmpty_iff, h0]
      have hexp : expandTemplate (normalizedVars vars) t =
          (listProduct ((referencedVars (normalizedVars vars) t).map
            (fun n => (lookupD (normalizedVars vars) n).getD []))).map
            (fun combo =>
              (substituteCombo t (referencedVars (normalizedVars vars) t) combo,
                some combo)) := by
        simp only [expandTemplate]
        rw [if_neg hrne]
      have hsub : ∀ n ∈ referencedVars (normalizedVars vars) t,
          n ∈ (normalizedVars vars).map Prod.fst := by
        intro n hn
        simp only [referencedVars, List.mem_filter] at hn
        exact hn.1
      refine ⟨?_, fun he => absurd he h0, ?_, ?_⟩
      · rw [hexp]
        simp [listProduct_length, List.map_map, Function.comp_def]
      · rw [hexp]
        rw [List.map_map]
        have : (Prod.snd ∘ fun combo : List String =>
            (substituteCombo t (referencedVars (normalizedVars vars) t) combo,
              some combo)) = Option.some := rfl
        rw [this]
        refine List.Nodup.map (fun a b e => by injection e) ?_
        refine listProduct_nodup _ ?_
        intro l hl
        simp only [List.mem_map] at hl
        obtain ⟨n, hn, rfl⟩ := hl
        exact hvalNodup n (hsub n hn)
      · intro combo
        rw [hexp, List.map_map]
        have hcomp : (Prod.snd ∘ fun combo : List String =>
            (substituteCombo t (referencedVars (normalizedVars vars) t) combo,
              some combo)) = Option.some := rfl
        rw [hcomp]
        constructor
        · intro hmem
          obtain ⟨c2, hc2, he⟩ := List.mem_map.mp hmem
          have : c2 = combo := by injection he
          subst this
          refine ⟨h0, ?_⟩
          have := (listProduct_mem _ c2).mp hc2
          rw [List.forall₂_map_right_iff] at this
          exact this
        · rintro ⟨_, hfa⟩
          refine List.mem_map.mpr ⟨combo, ?_, rfl⟩
          rw [listProduct_mem, List.forall₂_map_right_iff]
          exact hfa

/-- C5 witness: the amended theorem applied to the variable set
`{v: [A, B]}` and template list `["{v} x"]`. -/
theorem claim_C5_witness :
    (([("v", ["A", "B"])] : List (String × List String)) ≠ [] ∧
      (([("v", ["A", "B"])] : List (String × List String)).map
        (fun kv => normalizeVarName kv.1)).Nodup ∧
      ∀ kv ∈ ([("v", ["A", "B"])] : List (String × List String)), kv.2.Nodup) ∧
    ((expand_query_templates ["{v} x"] [("v", ["A", "B"])]).1.length =
      (expand_query_templates ["{v} x"] [("v", ["A", "B"])]).2.length ∧
    (expand_query_templates ["{v} x"] [("v", ["A", "B"])]).2 =
      ((["{v} x"] : List String).flatMap
        (expandTemplate (normalizedVars [("v", ["A", "B"])]))).map Prod.snd ∧
    (∀ kv ∈ ([("v", ["A", "B"])] : List (String × List String)),
      lookupD (normalizedVars [("v", ["A", "B"])]) (normalizeVarName kv.1) =
        some kv.2) ∧
    ∀ t : String,
      (expandTemplate (normalizedVars [("v", ["A", "B"])]) t).length =
        ((referencedVars (normalizedVars [("v", ["A", "B"])]) t).map
          (fun n =>
            ((lookupD (normalizedVars [("v", ["A", "B"])]) n).getD []).length)).prod ∧
      (referencedVars (normalizedVars [("v", ["A", "B"])]) t = [] →
        expandTemplate (normalizedVars [("v", ["A", "B"])]) t = [(t, none)]) ∧
      ((expandTemplate (normalizedVars [("v", ["A", "B"])]) t).map Prod.snd).Nodup ∧
      ∀ combo : List String,
        some combo ∈
            (expandTemplate (normalizedVars [("v", ["A", "B"])]) t).map Prod.snd ↔
          (referencedVars (normalizedVars [("v", ["A", "B"])]) t ≠ [] ∧
            List.Forall₂
              (fun v n =>
                v ∈ (lookupD (normalizedVars [("v", ["A", "B"])]) n).getD [])
              combo (referencedVars (normalizedVars [("v", ["A", "B"])]) t))) :=
  ⟨⟨by decide, by decide, by decide⟩,
    claim_C5_amended ["{v} x"] [("v", ["A", "B"])] (by decide) (by decide) (by decide)⟩

/-- C6: code bug.  Placeholder detection lowercases the template
(`"{country}" in template.lower()`), but the substitution
`query.replace("{country}", value)` is case-sensitive and runs on the
original template, so the template `"{Country}"` with variable `country`
is detected (a combination is attached) yet the produced "expanded" query
still contains the literal token `{Country}` and not the value.  With the
token's case matching exactly, substitution does happen. -/
theorem claim_C6_code_bug :
    expand_query_templates ["{Country}"] [("country", ["France"])] =
      (["{Country}"], [some ["France"]]) ∧
    expand_query_templates ["{country}"] [("country", ["France"])] =
      (["France"], [some ["France"]]) := by
  constructor
  · rfl
  · rfl

/-- C9: code bug.  `_get_variable_value_for_country_assignment` indexes
the combination tuple by the variable's position among ALL
`search_query_variables` keys, but the tuple produced by
`_expand_query_templates` is laid out by the referenced-placeholder set
only.  With `variables = {lang: [en], country: [X]}` and template
`"{country}"`, the combination is `("X",)` while `country` has dict
position 1, so the lookup falls out of range, returns `None`, and the
per-value geolocation override for `X` is silently skipped; with
`country` as the only variable the same lookup succeeds. -/
theorem claim_C9_code_bug :
    expand_query_templates ["{country}"] [("lang", ["en"]), ("country", ["X"])] =
      (["X"], [some ["X"]]) ∧
    get_variable_value_for_country_assignment (some ["X"]) "country"
      [("lang", ["en"]), ("country", ["X"])] = none ∧
    resolveCountryOverride none none (some "country") none
      (some [("X", "France")]) [("lang", ["en"]), ("country", ["X"])]
      (some ["X"]) = (none, none) ∧
    get_variable_value_for_country_assignment (some ["X"]) "country"
      [("country", ["X"])] = some "X" ∧
    resolveCountryOverride none none (some "country") none
      (some [("X", "France")]) [("country", ["X"])] (some ["X"]) =
      (none, some "France") := by
  exact ⟨rfl, rfl, rfl, rfl, rfl⟩

/-! ## Retrieval orchestrators (webpage_retrieval.py)

The remote Bright Data search proxy is a black box in the spec; its page
responses are therefore inputs to the embedded orchestrators.  A
`QueryRun` carries, for one `(query, variable_value_combo)` loop
iteration, the simplified result lists of every page request of every
date chunk (`chunkPages[chunk][page]` is one response's result list, in
processing order).  `_retrieve_bright_data_results` concatenates the page
results of one chunk; the streaming variant instead walks the items one
by one.  The `seen_urls` set is embedded as a list of links used only
through membership. -/

/-- A normalized search result (`{link, title, description, source?}`);
`source` is populated only in news mode. -/
structure SearchResult where
  link : String
  title : String
  description : String
  source : Option String
deriving DecidableEq, Repr

/-- One iteration of the per-query loop: the variable-value combination,
the query string, and the remote responses for each (date chunk, page). -/
structure QueryRun where
  combo : Option (List String)
  query : String
  chunkPages : List (List (List SearchResult))
deriving DecidableEq, Repr

instance : Inhabited SearchResult := ⟨⟨"", "", "", none⟩⟩

/-- Embedding of `_retrieve_bright_data_results` on the page responses of
one (query, chunk): the pages' simplified results, concatenated. -/
def retrieve_bright_data_results (pages : List (List SearchResult)) :
    List SearchResult :=
  pages.flatten

/-- Embedding of `_process_date_chunks`: per chunk, keep the results whose
link is not yet in `seen_urls` (the comprehension tests the whole chunk
against the same set), then record the retained links; returns the
retained results of all chunks and the final seen set. -/
def process_date_chunks :
    List String → List (List (List SearchResult)) →
      List SearchResult × List String
  | seen, [] => ([], seen)
  | seen, chunk :: rest =>
    let chunkResults := retrieve_bright_data_results chunk
    let unique := chunkResults.filter (fun r => decide (r.link ∉ seen))
    let seen2 := seen ++ unique.map (fun r => r.link)
    let pr := process_date_chunks seen2 rest
    (unique ++ pr.1, pr.2)

/-- Python `results[combo][query] = chunk_results` on the inner dict. -/
def setInnerQ (inner : List (String × List SearchResult)) (q : String)
    (v : List SearchResult) : List (String × List SearchResult) :=
  if q ∈ inner.map Prod.fst then
    inner.map (fun p => if p.1 = q then (p.1, v) else p)
  else inner ++ [(q, v)]

/-- Python `if combo not in results: results[combo] = {}`. -/
def ensureCombo
    (m : List (Option (List String) × List (String × List SearchResult)))
    (c : Option (List String)) :
    List (Option (List String) × List (String × List SearchResult)) :=
  if c ∈ m.map Prod.fst then m else m ++ [(c, [])]

/-- Python `results[combo][query] = chunk_results` on the outer dict
(the combo key is present). -/
def assignNested
    (m : List (Option (List String) × List (String × List SearchResult)))
    (c : Option (List String)) (q : String) (v : List SearchResult) :
    List (Option (List String) × List (String × List SearchResult)) :=
  m.map (fun p => if p.1 = c then (p.1, setInnerQ p.2 q v) else p)

/-- The query loop of `_process_queries_and_retrieve_results`, carrying
the shared `seen_urls` and the nested result mapping. -/
def process_queries_loop :
    List String →
    List (Option (List String) × List (String × List SearchResult)) →
    List QueryRun →
    List (Option (List String) × List (String × List SearchResult))
  | _, m, [] => m
  | seen, m, run :: rest =>
    let m1 := ensureCombo m run.combo
    let pr := process_date_chunks seen run.chunkPages
    process_queries_loop pr.2 (assignNested m1 run.combo run.query pr.1) rest

/-- Embedding of `_process_queries_and_retrieve_results` (batch
interface). -/
def process_queries_and_retrieve_results (runs : List QueryRun) :
    List (Option (List String) × List (String × List SearchResult)) :=
  process_queries_loop [] [] runs

/-- The per-item loop of `_stream_bright_data_results` on one page
response: yield a result only if its link is unseen, recording the link
immediately on emission. -/
def stream_page (c : Option (List String)) (q : String) :
    List String → List SearchResult →
      List (Option (List String) × String × SearchResult) × List String
  | seen, [] => ([], seen)
  | seen, r :: rs =>
    if r.link ∈ seen then stream_page c q seen rs
    else
      let pr := stream_page c q (r.link :: seen) rs
      ((c, q, r) :: pr.1, pr.2)

/-- Embedding of `_stream_bright_data_results` on the page responses of
one (query, chunk). -/
def stream_bright_data_results (c : Option (List String)) (q : String) :
    List String → List (List SearchResult) →
      List (Option (List String) × String × SearchResult) × List String
  | seen, [] => ([], seen)
  | seen, page :: pages =>
    let p1 := stream_page c q seen page
    let p2 := stream_bright_data_results c q p1.2 pages
    (p1.1 ++ p2.1, p2.2)

/-- Embedding of `_stream_date_chunks`. -/
def stream_date_chunks (c : Option (List String)) (q : String) :
    List String → List (List (List SearchResult)) →
      List (Option (List String) × String × SearchResult) × List String
  | seen, [] => ([], seen)
  | seen, chunk :: chunks =>
    let p1 := stream_bright_data_results c q seen chunk
    let p2 := stream_date_chunks c q p1.2 chunks
    (p1.1 ++ p2.1, p2.2)

/-- Embedding of the emission path of
`_process_queries_and_stream_results`: the per-query override of request
parameters (modelled by `resolveCountryOverride`) does not touch the
`seen_urls` threading or the yielded triples, so the streamed sequence is
the concatenation over the query loop.  The result is the full (finite)
list of yielded `(combo, query, result)` triples. -/
def process_queries_and_stream_results :
    List String → List QueryRun →
      List (Option (List String) × String × SearchResult)
  | _, [] => []
  | seen, run :: rest =>
    let pr := stream_date_chunks run.combo run.query seen run.chunkPages
    pr.1 ++ process_queries_and_stream_results pr.2 rest

/-- Specification function: keep-first deduplication by link over a
sequence of `(combo, query, result)` triples, threading the seen set. -/
def keepFirstAux :
    List String → List (Option (List String) × String × SearchResult) →
      List (Option (List String) × String × SearchResult) × List String
  | seen, [] => ([], seen)
  | seen, t :: ts =>
    if t.2.2.link ∈ seen then keepFirstAux seen ts
    else
      let pr := keepFirstAux (t.2.2.link :: seen) ts
      (t :: pr.1, pr.2)

/-- The naive flattening of all responses of a retrieval invocation, each
result attributed to the query iteration that fetched it, in processing
order (query order, then chunk order, then page order, then item order). -/
def flattenRuns (runs : List QueryRun) :
    List (Option (List String) × String × SearchResult) :=
  runs.flatMap
    (fun run => (run.chunkPages.flatten.flatten).map (fun r => (run.combo, run.query, r)))

/-- The links of every result in every response of one query run. -/
def runResponseLinks (run : QueryRun) : List String :=
  (run.chunkPages.flatten.flatten).map (fun r => r.link)

/-- The flat concatenation, in processing order, of all retained results
of a batch invocation (the lists written into the nested mapping), with
the shared seen set threaded through. -/
def batch_flat : List String → List QueryRun → List SearchResult × List String
  | seen, [] => ([], seen)
  | seen, run :: rest =>
    let pr := process_date_chunks seen run.chunkPages
    let p2 := batch_flat pr.2 rest
    (pr.1 ++ p2.1, p2.2)

/-- All result lists stored in the nested mapping, concatenated. -/
def allResults
    (m : List (Option (List String) × List (String × List SearchResult))) :
    List SearchResult :=
  m.flatMap (fun p => p.2.flatMap Prod.snd)

/-- All `(combo, query)` key pairs present in the nested mapping. -/
def pairsOf
    (m : List (Option (List String) × List (String × List SearchResult))) :
    List (Option (List String) × String) :=
  m.flatMap (fun p => p.2.map (fun qv => (p.1, qv.1)))

/-! ## Streaming equals keep-first deduplication -/

theorem stream_page_eq_keepFirst (c : Option (List String)) (q : String) :
    ∀ (seen : List String) (rs : List SearchResult),
      stream_page c q seen rs =
        keepFirstAux seen (rs.map (fun r => (c, q, r))) := by
  intro seen rs
  induction rs generalizing seen with
  | nil => rfl
  | cons r rs ih =>
    by_cases h : r.link ∈ seen <;>
      simp [stream_page, keepFirstAux, h, ih]

theorem keepFirstAux_append :
    ∀ (a b : List (Option (List String) × String × SearchResult))
      (seen : List String),
      keepFirstAux seen (a ++ b) =
        ((keepFirstAux seen a).1 ++ (keepFirstAux (keepFirstAux seen a).2 b).1,
          (keepFirstAux (keepFirstAux seen a).2 b).2) := by
  intro a
  induction a with
  | nil => intro b seen; simp [keepFirstAux]
  | cons t ts ih =>
    intro b seen
    by_cases h : t.2.2.link ∈ seen <;>
      simp [keepFirstAux, h, ih]

theorem stream_bright_data_results_eq_keepFirst
    (c : Option (List String)) (q : String) :
    ∀ (pages : List (List SearchResult)) (seen : List String),
      stream_bright_data_results c q seen pages =
        keepFirstAux seen ((pages.flatten).map (fun r => (c, q, r))) := by
  intro pages
  induction pages with
  | nil => intro seen; simp [stream_bright_data_results, keepFirstAux]
  | cons page pages ih =>
    intro seen
    rw [List.flatten_cons, List.map_append, keepFirstAux_append]
    simp only [stream_bright_data_results, stream_page_eq_keepFirst, ih]

theorem stream_date_chunks_eq_keepFirst
    (c : Option (List String)) (q : String) :
    ∀ (chunks : List (List (List SearchResult))) (seen : List String),
      stream_date_chunks c q seen chunks =
        keepFirstAux seen ((chunks.flatten.flatten).map (fun r => (c, q, r))) := by
  intro chunks
  induction chunks with
  | nil => intro seen; simp [stream_date_chunks, keepFirstAux]
  | cons chunk chunks ih =>
    intro seen
    rw [List.flatten_cons, List.flatten_append, List.map_append, keepFirstAux_append]
    simp only [stream_date_chunks, stream_bright_data_results_eq_keepFirst, ih]

theorem process_queries_and_stream_results_eq_keepFirst :
    ∀ (runs : List QueryRun) (seen : List String),
      process_queries_and_stream_results seen runs =
        (keepFirstAux seen (flattenRuns runs)).1 := by
  intro runs
  induction runs with
  | nil => intro seen; simp [process_queries_and_stream_results, flattenRuns, keepFirstAux]
  | cons run rest ih =>
    intro seen
    have hfl : flattenRuns (run :: rest) =
        ((run.chunkPages.flatten.flatten).map (fun r => (run.combo, run.query, r))) ++
          flattenRuns rest := by
      simp [flattenRuns]
    rw [hfl, keepFirstAux_append]
    simp only [process_queries_and_stream_results,
      stream_date_chunks_eq_keepFirst, ih]

theorem keepFirstAux_nodup :
    ∀ (l : List (Option (List String) × String × SearchResult))
      (seen : List String),
      ((keepFirstAux seen l).1.map (fun t => t.2.2.link)).Nodup ∧
      ∀ x ∈ (keepFirstAux seen l).1.map (fun t => t.2.2.link), x ∉ seen := by
  intro l
  induction l with
  | nil => intro seen; simp [keepFirstAux]
  | cons t ts ih =>
    intro seen
    by_cases h : t.2.2.link ∈ seen
    · have hrw : keepFirstAux seen (t :: ts) = keepFirstAux seen ts := by
        simp [keepFirstAux, h]
      rw [hrw]
      exact ih seen
    · have ih2 := ih (t.2.2.link :: seen)
      have hrw : keepFirstAux seen (t :: ts) =
          (t :: (keepFirstAux (t.2.2.link :: seen) ts).1,
            (keepFirstAux (t.2.2.link :: seen) ts).2) := by
        simp [keepFirstAux, h]
      rw [hrw]
      simp only [List.map_cons, List.nodup_cons, List.mem_cons]
      refine ⟨⟨?_, ih2.1⟩, ?_⟩
      · intro hmem
        have h3 := ih2.2 _ hmem
        simp at h3
      · intro x hx
        rcases hx with he | hmem
        · exact he ▸ h
        · have h4 := ih2.2 x hmem
          simp only [List.mem_cons, not_or] at h4
          exact h4.2

theorem keepFirstAux_mem :
    ∀ (l : List (Option (List String) × String × SearchResult))
      (seen : List String) (x : String),
      x ∈ (keepFirstAux seen l).1.map (fun t => t.2.2.link) ↔
        x ∉ seen ∧ x ∈ l.map (fun t => t.2.2.link) := by
  intro l
  induction l with
  | nil => intro seen x; simp [keepFirstAux]
  | cons t ts ih =>
    intro seen x
    by_cases h : t.2.2.link ∈ seen
    · rw [keepFirstAux, if_pos h]
      rw [ih]
      simp only [List.map_cons, List.mem_cons]
      constructor
      · rintro ⟨hn, hm⟩
        exact ⟨hn, Or.inr hm⟩
      · rintro ⟨hn, he | hm⟩
        · exact absurd (he ▸ h) hn
        · exact ⟨hn, hm⟩
    · rw [keepFirstAux, if_neg h]
      simp only [List.map_cons, List.mem_cons, ih, not_or]
      constructor
      · rintro (he | ⟨⟨hne, hns⟩, hm⟩)
        · exact ⟨he ▸ h, Or.inl he⟩
        · exact ⟨hns, Or.inr hm⟩
      · rintro ⟨hns, he | hm⟩
        · exact Or.inl he
        · by_cases hx : x = t.2.2.link
          · exact Or.inl hx
          · exact Or.inr ⟨⟨hx, hns⟩, hm⟩

/-! ## Batch deduplication lemmas -/

theorem process_date_chunks_seen_eq :
    ∀ (chunks : List (List (List SearchResult))) (seen : List String),
      (process_date_chunks seen chunks).2 =
        seen ++ ((process_date_chunks seen chunks).1).map (fun r => r.link) := by
  intro chunks
  induction chunks with
  | nil => intro seen; simp [process_date_chunks]
  | cons chunk rest ih =>
    intro seen
    simp only [process_date_chunks]
    rw [ih]
    simp [List.map_append, List.append_assoc]

theorem process_date_chunks_out :
    ∀ (chunks : List (List (List SearchResult))) (seen : List String)
      (r : SearchResult),
      r ∈ (process_date_chunks seen chunks).1 →
        r.link ∉ seen ∧ r ∈ chunks.flatten.flatten := by
  intro chunks
  induction chunks with
  | nil => intro seen r hr; simp [process_date_chunks] at hr
  | cons chunk rest ih =>
    intro seen r hr
    simp only [process_date_chunks, List.mem_append] at hr
    rcases hr with h1 | h2
    · rw [List.mem_filter] at h1
      have hlink : r.link ∉ seen := by
        have := h1.2
        simpa using this
      refine ⟨hlink, ?_⟩
      rw [List.flatten_cons, List.flatten_append, List.mem_append]
      exact Or.inl h1.1
    · have h3 := ih _ r h2
      simp only [List.mem_append, not_or] at h3
      refine ⟨h3.1.1, ?_⟩
      rw [List.flatten_cons, List.flatten_append, List.mem_append]
      exact Or.inr h3.2

theorem process_date_chunks_mem_seen :
    ∀ (chunks : List (List (List SearchResult))) (seen : List String)
      (x : String),
      x ∈ (process_date_chunks seen chunks).2 ↔
        x ∈ seen ∨ x ∈ (chunks.flatten.flatten).map (fun r => r.link) := by
  intro chunks
  induction chunks with
  | nil => intro seen x; simp [process_date_chunks]
  | cons chunk rest ih =>
    intro seen x
    simp only [process_date_chunks]
    rw [ih]
    simp only [List.flatten_cons, List.flatten_append, List.map_append,
      List.mem_append, List.mem_map, List.mem_filter,
      retrieve_bright_data_results, decide_eq_true_eq]
    constructor
    · rintro ((h1 | ⟨r, ⟨hrc, _⟩, he⟩) | hr)
      · exact Or.inl h1
      · exact Or.inr (Or.inl ⟨r, hrc, he⟩)
      · exact Or.inr (Or.inr hr)
    · rintro (h1 | ⟨r, hrc, he⟩ | hr)
      · exact Or.inl (Or.inl h1)
      · by_cases hx : x ∈ seen
        · exact Or.inl (Or.inl hx)
        · exact Or.inl (Or.inr ⟨r, ⟨hrc, by rw [he]; exact hx⟩, he⟩)
      · exact Or.inr hr

theorem process_date_chunks_complete
    (chunks : List (List (List SearchResult))) (seen : List String)
    (x : String) (hx : x ∈ (chunks.flatten.flatten).map (fun r => r.link))
    (hns : x ∉ seen) :
    x ∈ ((process_date_chunks seen chunks).1).map (fun r => r.link) := by
  have h1 : x ∈ (process_date_chunks seen chunks).2 :=
    (process_date_chunks_mem_seen chunks seen x).mpr (Or.inr hx)
  rw [process_date_chunks_seen_eq, List.mem_append] at h1
  rcases h1 with h2 | h3
  · exact absurd h2 hns
  · exact h3

theorem process_date_chunks_nodup :
    ∀ (chunks : List (List (List SearchResult))) (seen : List String),
      (∀ chunk ∈ chunks, ((chunk.flatten).map (fun r => r.link)).Nodup) →
      (((process_date_chunks seen chunks).1).map (fun r => r.link)).Nodup := by
  intro chunks
  induction chunks with
  | nil => intro seen _; simp [process_date_chunks]
  | cons chunk rest ih =>
    intro seen hch
    simp only [process_date_chunks, List.map_append]
    refine List.Nodup.append ?_ (ih _ (fun c hc => hch c (by simp [hc]))) ?_
    · refine List.Nodup.sublist ?_ (hch chunk (by simp))
      exact List.Sublist.map _ (List.filter_sublist _)
    · intro x hx1 hx2
      obtain ⟨r2, hr2, he2⟩ := List.mem_map.mp hx2
      have h3 := (process_date_chunks_out rest _ r2 hr2).1
      rw [he2] at h3
      exact h3 (List.mem_append.mpr (Or.inr hx1))

theorem batch_flat_seen_eq :
    ∀ (runs : List QueryRun) (seen : List String),
      (batch_flat seen runs).2 =
        seen ++ ((batch_flat seen runs).1).map (fun r => r.link) := by
  intro runs
  induction runs with
  | nil => intro seen; simp [batch_flat]
  | cons run rest ih =>
    intro seen
    simp only [batch_flat]
    rw [ih, process_date_chunks_seen_eq]
    simp [List.map_append, List.append_assoc]

theorem batch_flat_out :
    ∀ (runs : List QueryRun) (seen : List String) (r : SearchResult),
      r ∈ (batch_flat seen runs).1 →
        r.link ∉ seen ∧ ∃ run ∈ runs, r ∈ run.chunkPages.flatten.flatten := by
  intro runs
  induction runs with
  | nil => intro seen r hr; simp [batch_flat] at hr
  | cons run rest ih =>
    intro seen r hr
    simp only [batch_flat, List.mem_append] at hr
    rcases hr with h1 | h2
    · have h3 := process_date_chunks_out _ _ _ h1
      exact ⟨h3.1, run, by simp, h3.2⟩
    · have h3 := ih _ r h2
      rw [process_date_chunks_seen_eq, List.mem_append] at h3
      obtain ⟨hns, run2, hrun2, hmem⟩ := h3
      simp only [not_or] at hns
      exact ⟨hns.1, run2, by simp [hrun2], hmem⟩

theorem batch_flat_mem_seen :
    ∀ (runs : List QueryRun) (seen : List String) (x : String),
      x ∈ (batch_flat seen runs).2 ↔
        x ∈ seen ∨ ∃ run ∈ runs, x ∈ runResponseLinks run := by
  intro runs
  induction runs with
  | nil => intro seen x; simp [batch_flat]
  | cons run rest ih =>
    intro seen x
    simp only [batch_flat]
    rw [ih, process_date_chunks_mem_seen]
    simp only [runResponseLinks, List.mem_cons]
    constructor
    · rintro ((h1 | h2) | ⟨run2, hr2, h3⟩)
      · exact Or.inl h1
      · exact Or.inr ⟨run, Or.inl rfl, h2⟩
      · exact Or.inr ⟨run2, Or.inr hr2, h3⟩
    · rintro (h1 | ⟨run2, hr2 | hr2, h3⟩)
      · exact Or.inl (Or.inl h1)
      · exact Or.inl (Or.inr (hr2 ▸ h3))
      · exact Or.inr ⟨run2, hr2, h3⟩

theorem batch_flat_complete :
    ∀ (runs : List QueryRun) (seen : List String) (x : String),
      x ∈ ((batch_flat seen runs).1).map (fun r => r.link) ↔
        x ∉ seen ∧ ∃ run ∈ runs, x ∈ runResponseLinks run := by
  intro runs seen x
  constructor
  · intro hx
    obtain ⟨r, hr, he⟩ := List.mem_map.mp hx
    obtain ⟨hns, run, hrun, hmem⟩ := batch_flat_out runs seen r hr
    exact ⟨he ▸ hns, run, hrun,
      List.mem_map.mpr ⟨r, hmem, he⟩⟩
  · rintro ⟨hns, hex⟩
    have h1 : x ∈ (batch_flat seen runs).2 :=
      (batch_flat_mem_seen runs seen x).mpr (Or.inr hex)
    rw [batch_flat_seen_eq, List.mem_append] at h1
    rcases h1 with h2 | h3
    · exact absurd h2 hns
    · exact h3

theorem batch_flat_nodup :
    ∀ (runs : List QueryRun) (seen : List String),
      (∀ run ∈ runs, ∀ chunk ∈ run.chunkPages,
        ((chunk.flatten).map (fun r => r.link)).Nodup) →
      (((batch_flat seen runs).1).map (fun r => r.link)).Nodup := by
  intro runs
  induction runs with
  | nil => intro seen _; simp [batch_flat]
  | cons run rest ih =>
    intro seen hch
    simp only [batch_flat, List.map_append]
    refine List.Nodup.append
      (process_date_chunks_nodup _ _ (hch run (by simp)))
      (ih _ (fun run2 h2 => hch run2 (by simp [h2]))) ?_
    intro x hx1 hx2
    obtain ⟨r2, hr2, he2⟩ := List.mem_map.mp hx2
    have h3 := (batch_flat_out rest _ r2 hr2).1
    rw [he2] at h3
    rw [process_date_chunks_seen_eq] at h3
    exact h3 (List.mem_append.mpr (Or.inr hx1))

theorem batch_flat_append :
    ∀ (pre post : List QueryRun) (seen : List String),
      batch_flat seen (pre ++ post) =
        ((batch_flat seen pre).1 ++ (batch_flat (batch_flat seen pre).2 post).1,
          (batch_flat (batch_flat seen pre).2 post).2) := by
  intro pre
  induction pre with
  | nil => intro post seen; simp [batch_flat]
  | cons run rest ih =>
    intro post seen
    simp only [List.cons_append, batch_flat, List.append_eq, ih,
      List.append_assoc]

/-! ## Nested-mapping lemmas -/

theorem ensureCombo_allResults
    (m : List (Option (List String) × List (String × List SearchResult)))
    (c : Option (List String)) :
    allResults (ensureCombo m c) = allResults m := by
  unfold ensureCombo
  split
  · rfl
  · simp [allResults]

theorem ensureCombo_pairsOf
    (m : List (Option (List String) × List (String × List SearchResult)))
    (c : Option (List String)) :
    pairsOf (ensureCombo m c) = pairsOf m := by
  unfold ensureCombo
  split
  · rfl
  · simp [pairsOf]

theorem ensureCombo_keys_nodup
    (m : List (Option (List String) × List (String × List SearchResult)))
    (c : Option (List String)) (h : (m.map Prod.fst).Nodup) :
    ((ensureCombo m c).map Prod.fst).Nodup := by
  unfold ensureCombo
  split
  · exact h
  · next hne =>
    simp only [List.map_append, List.map_cons, List.map_nil]
    refine List.Nodup.append h (by simp) ?_
    intro a ha hac
    rw [List.mem_singleton] at hac
    subst hac
    exact hne ha

theorem ensureCombo_mem_keys
    (m : List (Option (List String) × List (String × List SearchResult)))
    (c : Option (List String)) :
    c ∈ (ensureCombo m c).map Prod.fst := by
  unfold ensureCombo
  split
  · next hc => exact hc
  · simp

theorem assignNested_of_not_mem
    (m : List (Option (List String) × List (String × List SearchResult)))
    (c : Option (List String)) (q : String) (v : List SearchResult)
    (h : c ∉ m.map Prod.fst) :
    assignNested m c q v = m := by
  unfold assignNested
  rw [List.map_congr_left (g := id), List.map_id]
  intro p hp
  have hne : ¬(p.1 = c) := by
    intro he
    exact h (List.mem_map.mpr ⟨p, hp, he⟩)
  simp [hne]

theorem setInnerQ_fresh (inner : List (String × List SearchResult))
    (q : String) (v : List SearchResult) (h : q ∉ inner.map Prod.fst) :
    setInnerQ inner q v = inner ++ [(q, v)] := by
  unfold setInnerQ
  rw [if_neg h]

theorem assignNested_perm
    (c : Option (List String)) (q : String) (v : List SearchResult) :
    ∀ (m : List (Option (List String) × List (String × List SearchResult))),
      (m.map Prod.fst).Nodup → c ∈ m.map Prod.fst → (c, q) ∉ pairsOf m →
      List.Perm (allResults (assignNested m c q v)) (allResults m ++ v) := by
  intro m
  induction m with
  | nil => intro _ hc _; simp at hc
  | cons p rest ih =>
    intro hnd hc hpair
    obtain ⟨c2, inner⟩ := p
    simp only [List.map_cons, List.nodup_cons] at hnd
    simp only [pairsOf, List.flatMap_cons, List.mem_append, not_or] at hpair
    by_cases hcc : c2 = c
    · subst hcc
      have hrest : assignNested rest c2 q v = rest :=
        assignNested_of_not_mem rest c2 q v hnd.1
      have hq : q ∉ inner.map Prod.fst := by
        intro hq2
        obtain ⟨qv, hqv, he⟩ := List.mem_map.mp hq2
        exact hpair.1 (List.mem_map.mpr ⟨qv, hqv, by rw [he]⟩)
      have hassign : assignNested ((c2, inner) :: rest) c2 q v =
          (c2, inner ++ [(q, v)]) :: rest := by
        unfold assignNested
        simp only [List.map_cons, if_pos rfl]
        rw [setInnerQ_fresh inner q v hq]
        have h5 := assignNested_of_not_mem rest c2 q v hnd.1
        unfold assignNested at h5
        rw [h5]
        simp
      rw [hassign]
      simp only [allResults, List.flatMap_cons, List.flatMap_append]
      simp only [List.flatMap_cons, List.flatMap_nil, List.append_nil]
      rw [List.append_assoc, List.append_assoc]
      exact List.Perm.append_left _ List.perm_append_comm
    · have hcr : c ∈ rest.map Prod.fst := by
        simp only [List.map_cons, List.mem_cons] at hc
        rcases hc with he | hm
        · exact absurd he.symm hcc
        · exact hm
      have hassign : assignNested ((c2, inner) :: rest) c q v =
          (c2, inner) :: assignNested rest c q v := by
        unfold assignNested
        simp only [List.map_cons, if_neg hcc]
      rw [hassign]
      simp only [allResults, List.flatMap_cons]
      have ih2 := ih hnd.2 hcr hpair.2
      rw [List.append_assoc]
      exact List.Perm.append_left _ ih2

theorem pairsOf_assign
    (c : Option (List String)) (q : String) (v : List SearchResult) :
    ∀ (m : List (Option (List String) × List (String × List SearchResult))),
      (m.map Prod.fst).Nodup → (c, q) ∉ pairsOf m →
      ∀ p2, p2 ∈ pairsOf (assignNested m c q v) →
        p2 ∈ pairsOf m ∨ p2 = (c, q) := by
  intro m
  induction m with
  | nil => intro _ _ p2 hp2; simp [pairsOf, assignNested] at hp2
  | cons p rest ih =>
    intro hnd hpair p2 hp2
    obtain ⟨c2, inner⟩ := p
    simp only [List.map_cons, List.nodup_cons] at hnd
    simp only [pairsOf, List.flatMap_cons, List.mem_append, not_or] at hpair
    by_cases hcc : c2 = c
    · subst hcc
      have hq : q ∉ inner.map Prod.fst := by
        intro hq2
        obtain ⟨qv, hqv, he⟩ := List.mem_map.mp hq2
        exact hpair.1 (List.mem_map.mpr ⟨qv, hqv, by rw [he]⟩)
      have hassign : assignNested ((c2, inner) :: rest) c2 q v =
          (c2, inner ++ [(q, v)]) :: rest := by
        unfold assignNested
        simp only [List.map_cons, if_pos rfl]
        rw [setInnerQ_fresh inner q v hq]
        have h5 := assignNested_of_not_mem rest c2 q v hnd.1
        unfold assignNested at h5
        rw [h5]
        simp
      rw [hassign] at hp2
      simp only [pairsOf, List.flatMap_cons, List.map_append,
        List.mem_append] at hp2 ⊢
      rcases hp2 with (h1 | h1) | h2
      · exact Or.inl (Or.inl h1)
      · simp at h1
        exact Or.inr h1
      · exact Or.inl (Or.inr h2)
    · have hassign : assignNested ((c2, inner) :: rest) c q v =
          (c2, inner) :: assignNested rest c q v := by
        unfold assignNested
        simp only [List.map_cons, if_neg hcc]
      rw [hassign] at hp2
      simp only [pairsOf, List.flatMap_cons, List.mem_append] at hp2 ⊢
      rcases hp2 with h1 | h2
      · exact Or.inl (Or.inl h1)
      · rcases ih hnd.2 hpair.2 p2 h2 with h3 | h3
        · exact Or.inl (Or.inr h3)
        · exact Or.inr h3

theorem assignNested_keys
    (m : List (Option (List String) × List (String × List SearchResult)))
    (c : Option (List String)) (q : String) (v : List SearchResult) :
    (assignNested m c q v).map Prod.fst = m.map Prod.fst := by
  unfold assignNested
  rw [List.map_map]
  apply List.map_congr_left
  intro p _
  by_cases h : p.1 = c <;> simp [h]

theorem process_queries_loop_perm :
    ∀ (runs : List QueryRun) (seen : List String)
      (m : List (Option (List String) × List (String × List SearchResult))),
      (m.map Prod.fst).Nodup →
      ((runs.map (fun run => (run.combo, run.query))).Nodup) →
      (∀ run ∈ runs, (run.combo, run.query) ∉ pairsOf m) →
      List.Perm (allResults (process_queries_loop seen m runs))
        (allResults m ++ (batch_flat seen runs).1) := by
  intro runs
  induction runs with
  | nil =>
    intro seen m _ _ _
    simp [process_queries_loop, batch_flat]
  | cons run rest ih =>
    intro seen m hmk hrd hrp
    simp only [process_queries_loop, batch_flat]
    have hm1k : ((ensureCombo m run.combo).map Prod.fst).Nodup :=
      ensureCombo_keys_nodup m run.combo hmk
    have hm1c : run.combo ∈ (ensureCombo m run.combo).map Prod.fst :=
      ensureCombo_mem_keys m run.combo
    have hm1p : (run.combo, run.query) ∉ pairsOf (ensureCombo m run.combo) := by
      rw [ensureCombo_pairsOf]
      exact hrp run (by simp)
    have hperm1 := assignNested_perm run.combo run.query
      (process_date_chunks seen run.chunkPages).1
      (ensureCombo m run.combo) hm1k hm1c hm1p
    rw [ensureCombo_allResults] at hperm1
    have hm2k : ((assignNested (ensureCombo m run.combo) run.combo run.query
        (process_date_chunks seen run.chunkPages).1).map Prod.fst).Nodup := by
      rw [assignNested_keys]
      exact hm1k
    simp only [List.map_cons, List.nodup_cons] at hrd
    have hm2p : ∀ run2 ∈ rest, (run2.combo, run2.query) ∉
        pairsOf (assignNested (ensureCombo m run.combo) run.combo run.query
          (process_date_chunks seen run.chunkPages).1) := by
      intro run2 h2 hmem
      rcases pairsOf_assign run.combo run.query _ _ hm1k hm1p _ hmem with h3 | h3
      · rw [ensureCombo_pairsOf] at h3
        exact hrp run2 (by simp [h2]) h3
      · exact hrd.1 (List.mem_map.mpr ⟨run2, h2, by rw [h3]⟩)
    have ih2 := ih (process_date_chunks seen run.chunkPages).2 _ hm2k hrd.2 hm2p
    refine ih2.trans ?_
    rw [← List.append_assoc]
    exact List.Perm.append_right _ hperm1

/-! ## Claims C1 and C10 -/

/-- C1 counterexample: in the batch interface, when two different pages of
the SAME query and date chunk contain the same link, both copies are
retained: `_retrieve_bright_data_results` concatenates the pages and the
comprehension in `_process_date_chunks` filters the whole concatenation
against a seen set that is only updated after the chunk, so the returned
mapping lists the link twice. -/
theorem claim_C1_counterexample :
    process_queries_and_retrieve_results
        [⟨none, "q", [[[⟨"a", "t", "d", none⟩], [⟨"a", "t2", "d2", none⟩]]]⟩] =
      [(none, [("q", [⟨"a", "t", "d", none⟩, ⟨"a", "t2", "d2", none⟩])])] ∧
    ¬ (([⟨"a", "t", "d", none⟩, ⟨"a", "t2", "d2", none⟩] :
        List SearchResult).map (fun r => r.link)).Nodup := by
  exact ⟨rfl, by decide⟩

/-- C1 (amended): the streaming interface satisfies the claim in full: the
streamed sequence equals the keep-first deduplication (by link) of the
flattened responses in processing order, hence its links are pairwise
distinct, a link is streamed iff it occurs in some response, and each
result is attributed to the query iteration that first encountered it.
The batch interface deduplicates only ACROSS (query, date-chunk) units:
the flat concatenation of retained chunk results has pairwise-distinct
links provided each single chunk's concatenated pages carry distinct
links; a link is retained iff it occurs in some response; the nested
mapping holds a permutation of exactly these retained results when no
(combination, query) pair repeats; each retained result of a query
iteration has a link absent from every earlier iteration's responses. -/
theorem claim_C1_amended (runs : List QueryRun) :
    process_queries_and_stream_results [] runs =
      (keepFirstAux [] (flattenRuns runs)).1 ∧
    ((process_queries_and_stream_results [] runs).map
      (fun t => t.2.2.link)).Nodup ∧
    (∀ x, x ∈ (process_queries_and_stream_results [] runs).map
        (fun t => t.2.2.link) ↔
      x ∈ (flattenRuns runs).map (fun t => t.2.2.link)) ∧
    ((∀ run ∈ runs, ∀ chunk ∈ run.chunkPages,
        ((chunk.flatten).map (fun r => r.link)).Nodup) →
      (((batch_flat [] runs).1).map (fun r => r.link)).Nodup) ∧
    (∀ x, x ∈ ((batch_flat [] runs).1).map (fun r => r.link) ↔
      ∃ run ∈ runs, x ∈ runResponseLinks run) ∧
    ((runs.map (fun run => (run.combo, run.query))).Nodup →
      List.Perm (allResults (process_queries_and_retrieve_results runs))
        ((batch_flat [] runs).1)) ∧
    (∀ pre run post, runs = pre ++ run :: post →
      (batch_flat [] runs).1 =
        (batch_flat [] pre).1 ++
          ((process_date_chunks (batch_flat [] pre).2 run.chunkPages).1 ++
            (batch_flat
              (process_date_chunks (batch_flat [] pre).2 run.chunkPages).2
              post).1) ∧
      ∀ r ∈ (process_date_chunks (batch_flat [] pre).2 run.chunkPages).1,
        ∀ earlier ∈ pre, r.link ∉ runResponseLinks earlier) := by
  refine ⟨process_queries_and_stream_results_eq_keepFirst runs [], ?_, ?_, ?_, ?_, ?_, ?_⟩
  · rw [process_queries_and_stream_results_eq_keepFirst]
    exact (keepFirstAux_nodup (flattenRuns runs) []).1
  · intro x
    rw [process_queries_and_stream_results_eq_keepFirst, keepFirstAux_mem]
    simp
  · intro h
    exact batch_flat_nodup runs [] h
  · intro x
    rw [batch_flat_complete]
    simp
  · intro hrd
    have := process_queries_loop_perm runs [] [] (by simp) hrd
      (by intro run _; simp [pairsOf])
    simpa [process_queries_and_retrieve_results, allResults] using this
  · intro pre run post heq
    subst heq
    constructor
    · rw [batch_flat_append]
      simp [batch_flat]
    · intro r hr earlier hearlier hlink
      have h1 := (process_date_chunks_out _ _ _ hr).1
      apply h1
      rw [batch_flat_mem_seen]
      exact Or.inr ⟨earlier, hearlier, hlink⟩

/-- C1 witness: the amended theorem applied to a concrete two-query run
with overlapping links across the queries, its side conditions discharged
by evaluation. -/
theorem claim_C1_witness :
    process_queries_and_stream_results []
        [⟨none, "q1", [[[⟨"a", "t", "d", none⟩]]]⟩,
         ⟨none, "q2", [[[⟨"a", "t2", "d2", none⟩, ⟨"b", "t3", "d3", none⟩]]]⟩] =
      (keepFirstAux [] (flattenRuns
        [⟨none, "q1", [[[⟨"a", "t", "d", none⟩]]]⟩,
         ⟨none, "q2", [[[⟨"a", "t2", "d2", none⟩, ⟨"b", "t3", "d3", none⟩]]]⟩])).1 ∧
    (((batch_flat []
        [⟨none, "q1", [[[⟨"a", "t", "d", none⟩]]]⟩,
         ⟨none, "q2", [[[⟨"a", "t2", "d2", none⟩, ⟨"b", "t3", "d3", none⟩]]]⟩]).1).map
      (fun r => r.link)).Nodup ∧
    List.Perm
      (allResults (process_queries_and_retrieve_results
        [⟨none, "q1", [[[⟨"a", "t", "d", none⟩]]]⟩,
         ⟨none, "q2", [[[⟨"a", "t2", "d2", none⟩, ⟨"b", "t3", "d3", none⟩]]]⟩]))
      ((batch_flat []
        [⟨none, "q1", [[[⟨"a", "t", "d", none⟩]]]⟩,
         ⟨none, "q2", [[[⟨"a", "t2", "d2", none⟩, ⟨"b", "t3", "d3", none⟩]]]⟩]).1) :=
  ⟨(claim_C1_amended
      [⟨none, "q1", [[[⟨"a", "t", "d", none⟩]]]⟩,
       ⟨none, "q2", [[[⟨"a", "t2", "d2", none⟩, ⟨"b", "t3", "d3", none⟩]]]⟩]).1,
   (claim_C1_amended
      [⟨none, "q1", [[[⟨"a", "t", "d", none⟩]]]⟩,
       ⟨none, "q2", [[[⟨"a", "t2", "d2", none⟩, ⟨"b", "t3", "d3", none⟩]]]⟩]).2.2.2.1
     (by decide),
   (claim_C1_amended
      [⟨none, "q1", [[[⟨"a", "t", "d", none⟩]]]⟩,
       ⟨none, "q2", [[[⟨"a", "t2", "d2", none⟩, ⟨"b", "t3", "d3", none⟩]]]⟩]).2.2.2.2.2.1
     (by decide)⟩

/-- C10: when two query-loop iterations carry an equal
(variable-combination, query) pair — which the non-deduplicating
expansion permits, e.g. for a repeated template — the nested mapping
returned by `_process_queries_and_retrieve_results` holds only the chunk
results of the later iteration (the assignment overwrites the earlier
entry), and because the earlier iteration's links were already recorded
as seen, none of the earlier retained results' links appear in the final
entry. -/
theorem claim_C10_overwrite (c : Option (List String)) (q : String)
    (cp1 cp2 : List (List (List SearchResult))) :
    process_queries_and_retrieve_results [⟨c, q, cp1⟩, ⟨c, q, cp2⟩] =
      [(c, [(q, (process_date_chunks (process_date_chunks [] cp1).2 cp2).1)])] ∧
    ∀ r ∈ (process_date_chunks [] cp1).1,
      r.link ∉ ((process_date_chunks (process_date_chunks [] cp1).2 cp2).1).map
        (fun r2 => r2.link) := by
  constructor
  · simp [process_queries_and_retrieve_results, process_queries_loop,
      ensureCombo, assignNested, setInnerQ]
  · intro r hr hmem
    obtain ⟨r2, hr2, he⟩ := List.mem_map.mp hmem
    have h1 := (process_date_chunks_out cp2 _ r2 hr2).1
    rw [he] at h1
    apply h1
    rw [process_date_chunks_seen_eq]
    simp only [List.nil_append]
    exact List.mem_map.mpr ⟨r, hr, rfl⟩

/-- C10 witness: the overwrite theorem applied to two iterations sharing
the pair `(None, "q")`, the first fetching link `a` and the second links
`a` and `b`; the final entry holds only the `b` result. -/
theorem claim_C10_witness :
    process_queries_and_retrieve_results
        [⟨none, "q", [[[⟨"a", "t", "d", none⟩]]]⟩,
         ⟨none, "q", [[[⟨"a", "t2", "d2", none⟩, ⟨"b", "t3", "d3", none⟩]]]⟩] =
      [(none, [("q", (process_date_chunks
          (process_date_chunks [] [[[⟨"a", "t", "d", none⟩]]]).2
          [[[⟨"a", "t2", "d2", none⟩, ⟨"b", "t3", "d3", none⟩]]]).1)])] ∧
    ∀ r ∈ (process_date_chunks [] [[[⟨"a", "t", "d", none⟩]]]).1,
      r.link ∉ ((process_date_chunks
          (process_date_chunks [] [[[⟨"a", "t", "d", none⟩]]]).2
          [[[⟨"a", "t2", "d2", none⟩, ⟨"b", "t3", "d3", none⟩]]]).1).map
        (fun r2 => r2.link) :=
  claim_C10_overwrite none "q" [[[⟨"a", "t", "d", none⟩]]]
    [[[⟨"a", "t2", "d2", none⟩, ⟨"b", "t3", "d3", none⟩]]]
